import Mathlib

/-!
Verification development for the bioCN repository.

Part 1 embeds the role-extraction engine of `src/analyzer.py`
(`ChineseAnalyzer._extract_svo`, lines 107-237).  Tokens, POS tags and
dependency arcs are the oracle's per-sentence arrays; a dependency arc is a
pair `(head, rel)` with a 1-based integer head (0 meaning root).  Python list
indexing that can raise `IndexError` is modelled with `Option`: a `none`
result of a modelled function corresponds to the Python code raising.

Part 2 embeds the span-annotation engine of `src/epub_parser.py`
(`EpubParser._mark_svo_in_soup`, lines 154-180).  A parsed markup block is a
tree of element and text nodes; `soup.find_all(string=True)` enumerates every
text node at any depth, `element.replace(text, wrap)` is Python `str.replace`
(it replaces every non-overlapping occurrence, leftmost first), and
`element.replace_with(BeautifulSoup(new_text, "html.parser"))` splices the
parsed fragment in place of the text node.  The model assumes text content
carries no markup metacharacters, so parsing the replaced string yields
exactly the alternation of untouched text segments and freshly wrapped
`<span class=...>` elements; `wrapTextGo` below produces that alternation
directly by the same leftmost non-overlapping scan that `str.replace`
performs.
-/

/-! ### Part 1: role extraction (`src/analyzer.py`) -/

/-- Dependency arcs of one sentence: `(head, rel)` per token, head 1-based,
0 for root (`docs["dep"][i]` in the source). -/
abbrev DepArcs := List (Int × String)

/-- Children of the 0-based node `headIdx` bearing one of the relations
`rels`: models the inner helper `get_children` (analyzer.py lines 132-138),
which scans `enumerate(deps)` and keeps each position `j` with
`deps[j] == (head_idx + 1, r)` for some `r ∈ rels`. -/
def getChildrenAux (headIdx : Nat) (rels : List String) :
    Nat → DepArcs → List Nat
  | _, [] => []
  | j, (h, r) :: rest =>
    if h = (headIdx : Int) + 1 ∧ r ∈ rels then
      j :: getChildrenAux headIdx rels (j + 1) rest
    else
      getChildrenAux headIdx rels (j + 1) rest

/-- See `getChildrenAux`. -/
def getChildren (deps : DepArcs) (headIdx : Nat) (rels : List String) :
    List Nat :=
  getChildrenAux headIdx rels 0 deps

/-- One round of the breadth-first loop of `expand_conj`
(analyzer.py lines 141-157): pop the queue head, enqueue its unvisited
`"conj"` children and record them as visited.  The fuel argument makes the
loop structurally total; `expandConj` supplies `deps.length + 1` fuel, which
is enough because every enqueued node is distinct and below `deps.length`
(or is the start node), so the Python loop runs at most that many times. -/
def expandConjAux (deps : DepArcs) : Nat → List Nat → List Nat → List Nat
  | 0, _, visited => visited
  | _ + 1, [], visited => visited
  | fuel + 1, curr :: queue, visited =>
    let fresh := (getChildren deps curr ["conj"]).filter
      (fun c => decide (c ∉ visited))
    expandConjAux deps fuel (queue ++ fresh) (visited ++ fresh)

/-- Models `expand_conj(idx)` (analyzer.py lines 141-157): breadth-first
collection of the `"conj"`-descendants of `idx` (guarded by a visited set),
returned sorted ascending (`return sorted(indices)`). -/
def expandConj (deps : DepArcs) (idx : Nat) : List Nat :=
  List.insertionSort (· ≤ ·) (expandConjAux deps (deps.length + 1) [idx] [idx])

/-- Models `sorted(list(set(l)))` (analyzer.py lines 226-227): the ascending
duplicate-free list of the members of `l`. -/
def sortedSet (l : List Nat) : List Nat :=
  List.insertionSort (· ≤ ·) l.dedup

/-- Models the verb scan
`[(j, word) for j, word in enumerate(words) if pos_tags[j] == "VV"]`
(analyzer.py line 162).  `pos[j]?` can be absent when the tag array is
shorter than the token array, in which case the Python code raises. -/
def findVerbsAux (pos : List String) : Nat → List String →
    Option (List (Nat × String))
  | _, [] => some []
  | j, w :: ws => do
    let p ← pos[j]?
    let rest ← findVerbsAux pos (j + 1) ws
    pure (if p = "VV" then (j, w) :: rest else rest)

/-- See `findVerbsAux`. -/
def findVerbs (words pos : List String) : Option (List (Nat × String)) :=
  findVerbsAux pos 0 words

/-- Subject argument positions of the verb at `vidx` before coordination
expansion (analyzer.py lines 168-178): the `"nsubj"` children of `vidx`, or,
when there are none and `vidx`'s own arc has relation `"conj"` with head
index `≥ 0` after the 1-based shift, the `"nsubj"` children of that
immediate governor. -/
def subjIdxsOf (deps : DepArcs) (vidx : Nat) : Option (List Nat) :=
  if getChildren deps vidx ["nsubj"] = [] then do
    let hd ← deps[vidx]?
    pure (if hd.1 - 1 ≥ 0 ∧ hd.2 = "conj" then
            getChildren deps (hd.1 - 1).toNat ["nsubj"]
          else [])
  else some (getChildren deps vidx ["nsubj"])

/-- Subject positions of the verb at `vidx` with coordination expansion
(analyzer.py lines 180-181). -/
def subjectsOf (deps : DepArcs) (vidx : Nat) : Option (List Nat) :=
  (subjIdxsOf deps vidx).map (fun l => l.flatMap (expandConj deps))

/-- Direct-object positions, coordination-expanded (analyzer.py
lines 183-186). -/
def directObjects (deps : DepArcs) (vidx : Nat) : List Nat :=
  (getChildren deps vidx ["dobj", "obj"]).flatMap (expandConj deps)

/-- Passive-construction patients (analyzer.py lines 188-204): if the arc of
`vidx` has head index `≥ 0` and the governor's tag is `LB`/`SB` or its
surface is `被` (surface looked up only when the tag test fails, mirroring
the short-circuit `or`), collect the governor's `nsubjpass`/`nsubj:pass`
children, coordination-expanded.  Lookups past the end of an array model the
Python `IndexError`. -/
def passiveObjects (words pos : List String) (deps : DepArcs) (vidx : Nat) :
    Option (List Nat) := do
  let hd ← deps[vidx]?
  if hd.1 - 1 ≥ 0 then do
    let hidx := (hd.1 - 1).toNat
    let hpos ← pos[hidx]?
    let isPass ←
      if hpos = "LB" ∨ hpos = "SB" then pure true
      else do
        let hw ← words[hidx]?
        pure (decide (hw = "被"))
    if isPass then
      pure ((getChildren deps hidx ["nsubjpass", "nsubj:pass"]).flatMap
        (expandConj deps))
    else pure []
  else pure []

/-- Candidate filter of the ba-construction search (analyzer.py
lines 217-223): keep each candidate not already among the subjects whose tag
is `NN`, `NR` or `PN`; the tag is looked up only after the subject test,
mirroring the short-circuit `and`. -/
def baFilterAux (pos : List String) (subjects : List Nat) :
    List Nat → Option (List Nat)
  | [] => some []
  | idx :: rest =>
    if idx ∈ subjects then baFilterAux pos subjects rest
    else do
      let p ← pos[idx]?
      let r ← baFilterAux pos subjects rest
      pure (if p = "NN" ∨ p = "NR" ∨ p = "PN" then idx :: r else r)

/-- Ba-construction objects (analyzer.py lines 206-223): only when `vidx`
has an `aux:ba` child and the object set collected so far is empty, search
the `dep`/`obl`/`dobj` children through `baFilterAux` and expand each kept
candidate by coordination. -/
def baObjects (pos : List String) (deps : DepArcs) (vidx : Nat)
    (subjects objects2 : List Nat) : Option (List Nat) :=
  if getChildren deps vidx ["aux:ba"] ≠ [] then
    if objects2 = [] then do
      let kept ← baFilterAux pos subjects
        (getChildren deps vidx ["dep", "obl", "dobj"])
      pure (kept.flatMap (expandConj deps))
    else pure []
  else pure []

/-- Object positions of the verb at `vidx` (analyzer.py lines 183-223):
direct objects, then passive patients, then the ba-construction additions. -/
def objectsOf (words pos : List String) (deps : DepArcs) (vidx : Nat)
    (subjects : List Nat) : Option (List Nat) := do
  let o2 := directObjects deps vidx ++ (← passiveObjects words pos deps vidx)
  let b ← baObjects pos deps vidx subjects o2
  pure (o2 ++ b)

/-- Effectful map over a list in the `Option` monad, mirroring a Python
loop that appends one result per element and propagates a raised
exception. -/
def optMapM {α β : Type} (f : α → Option β) : List α → Option (List β)
  | [] => some []
  | a :: rest => do
    let x ← f a
    let xs ← optMapM f rest
    pure (x :: xs)

/-- Models `"、".join([words[i] for i in sorted(list(set(idxs)))])`
(analyzer.py lines 226-227). -/
def renderIndices (words : List String) (idxs : List Nat) : Option String := do
  let surfs ← optMapM (fun i => words[i]?) (sortedSet idxs)
  pure (String.intercalate "、" surfs)

/-- One extracted subject-predicate-object record (analyzer.py
lines 230-232). -/
structure RoleTriple where
  subject : String
  predicate : String
  object : String
deriving DecidableEq, Repr

/-- Per-verb body of the extraction loop (analyzer.py lines 164-232).
`some none` means the verb was processed but yielded no record (the
`if subj_str or verb or obj_str` guard failed); the outer `none` means the
Python code raised. -/
def processVerb (words pos : List String) (deps : DepArcs) (vidx : Nat)
    (verb : String) : Option (Option RoleTriple) := do
  let S ← subjectsOf deps vidx
  let O ← objectsOf words pos deps vidx S
  let subjStr ← renderIndices words S
  let objStr ← renderIndices words O
  pure (if subjStr ≠ "" ∨ verb ≠ "" ∨ objStr ≠ "" then
          some ⟨subjStr, verb, objStr⟩
        else none)

/-- Extraction for one sentence (analyzer.py lines 159-232): process every
`VV`-tagged token in token order and keep the produced records. -/
def extractSentence (words pos : List String) (deps : DepArcs) :
    Option (List RoleTriple) := do
  let verbs ← findVerbs words pos
  let rs ← optMapM (fun vw => processVerb words pos deps vw.1 vw.2) verbs
  pure rs.reduceOption

/-- Oracle output for one sentence: the `dep`, `pos/ctb` and `tok/fine`
arrays read at analyzer.py lines 120-129. -/
structure SentDoc where
  dep : DepArcs
  pos : List String
  tok : List String

/-- Models Python `str.strip()`: drop leading and trailing whitespace
characters. -/
def pyStrip (s : String) : String :=
  ⟨((s.toList.dropWhile Char.isWhitespace).reverse.dropWhile
      Char.isWhitespace).reverse⟩

/-- Python `dict` assignment `m[k] = v` on an insertion-ordered mapping:
replace the value in place if the key exists, else append. -/
def dictInsert (k : String) (v : List RoleTriple) :
    List (String × List RoleTriple) → List (String × List RoleTriple)
  | [] => [(k, v)]
  | (k', v') :: rest =>
    if k' = k then (k, v) :: rest else (k', v') :: dictInsert k v rest

/-- Sentence loop of `_extract_svo` (analyzer.py lines 117-235): for each
sentence (key stripped of surrounding whitespace) read the aligned doc
arrays, extract, and record the results only when non-empty. -/
def extractSvoAux (docs : List SentDoc) : Nat → List String →
    List (String × List RoleTriple) → Option (List (String × List RoleTriple))
  | _, [], acc => some acc
  | i, s :: ss, acc => do
    let d ← docs[i]?
    let ts ← extractSentence d.tok d.pos d.dep
    extractSvoAux docs (i + 1) ss (if ts ≠ [] then dictInsert (pyStrip s) ts acc else acc)

/-- Models `ChineseAnalyzer._extract_svo(sentences, docs)` (analyzer.py
lines 107-237). -/
def extractSvo (sentences : List String) (docs : List SentDoc) :
    Option (List (String × List RoleTriple)) :=
  extractSvoAux docs 0 sentences []

/-! ### Part 2: span annotation (`src/epub_parser.py`) -/

/-- Character list; the annotation model works on decoded text content. -/
abbrev Str := List Char

/-- A markup node: literal text, or an element with a tag, a `class`
attribute and children. -/
inductive Node where
  | text : Str → Node
  | elem : Str → Str → List Node → Node

/-- Tag of every wrapper the marker inserts. -/
def spanTag : Str := "span".toList

/-- Models Python substring containment `t in s`. -/
def containsSub (t : Str) : Str → Bool
  | [] => t.isPrefixOf []
  | s@(_ :: rest) => t.isPrefixOf s || containsSub t rest

/-- Prepend one character to a node list, merging it into a leading text
node so that maximal runs of unreplaced characters form a single text node,
exactly as the parsed replacement string has one text node per segment
between wrappers. -/
def consText (x : Char) : List Node → List Node
  | Node.text u :: rest => Node.text (x :: u) :: rest
  | ns => Node.text [x] :: ns

/-- Scan of `element.replace(text, f'<span class="{cls}">{text}</span>')`
followed by parsing the result (epub_parser.py lines 175-180), for the
non-empty needle `c :: tr`: walk the content left to right, and at each
position where the needle starts, emit a wrapper element holding the needle
and skip past the matched characters (the first argument counts characters
still to skip), which is precisely the non-overlapping leftmost-first
replacement `str.replace` performs; unmatched characters accumulate into
text segments.  Empty segments produce no node, as parsing the replaced
string creates no empty text node. -/
def wrapTextGo (cls : Str) (c : Char) (tr : Str) : Nat → Str → List Node
  | _ + 1, [] => []
  | n + 1, _ :: rest => wrapTextGo cls c tr n rest
  | 0, [] => []
  | 0, x :: rest =>
    if (c :: tr).isPrefixOf (x :: rest) then
      Node.elem spanTag cls [Node.text (c :: tr)] :: wrapTextGo cls c tr tr.length rest
    else
      consText x (wrapTextGo cls c tr 0 rest)

mutual

/-- Application of one annotation `(cls, c :: tr)` to one node of the block
(epub_parser.py lines 173-180): `soup.find_all(string=True)` enumerates the
text nodes at every depth, each text node containing the span text is
replaced by the parsed replacement (the replaced node's fresh content is not
itself revisited during this same application, since `find_all` snapshots
the text nodes before the loop), and element nodes keep their shell while
their descendant text nodes are processed. -/
def markNode (cls : Str) (c : Char) (tr : Str) : Node → List Node
  | Node.text s =>
    if containsSub (c :: tr) s then wrapTextGo cls c tr 0 s else [Node.text s]
  | Node.elem tag k cs => [Node.elem tag k (markNodes cls c tr cs)]

/-- See `markNode`. -/
def markNodes (cls : Str) (c : Char) (tr : Str) : List Node → List Node
  | [] => []
  | n :: ns => markNode cls c tr n ++ markNodes cls c tr ns

end

/-- Application of one `(css class, span text)` annotation to a block; an
empty span text does nothing (`if svo[component]:`, epub_parser.py
line 171). -/
def applyAnnot (b : List Node) (a : Str × Str) : List Node :=
  match a.2 with
  | [] => b
  | c :: tr => markNodes a.1 c tr b

/-- Sequential application of an annotation list to a block, mirroring the
nested loops of `_mark_svo_in_soup` flattened into one annotation stream. -/
def markBlock (annots : List (Str × Str)) (b : List Node) : List Node :=
  annots.foldl applyAnnot b

/-- The three annotations one `RoleTriple` contributes, in the iteration
order of the `css_classes` dict of `_mark_svo_in_soup` (epub_parser.py
lines 162-171). -/
def annotsOfTriple (t : RoleTriple) : List (Str × Str) :=
  [("svo-subject".toList, t.subject.toList),
   ("svo-predicate".toList, t.predicate.toList),
   ("svo-object".toList, t.object.toList)]

/-- Models `EpubParser._mark_svo_in_soup(soup, sentence_svos)`
(epub_parser.py lines 154-180) acting on the children of the paragraph. -/
def markSvoInSoup (sentenceSvos : List (String × List RoleTriple))
    (block : List Node) : List Node :=
  markBlock (sentenceSvos.flatMap (fun p => p.2.flatMap annotsOfTriple)) block

/-! ### Observation functions on annotated blocks -/

mutual

/-- Number of element nodes in a node, at any depth. -/
def elemCountN : Node → Nat
  | .text _ => 0
  | .elem _ _ cs => 1 + elemCountL cs

/-- Number of element nodes in a node list, at any depth. -/
def elemCountL : List Node → Nat
  | [] => 0
  | n :: ns => elemCountN n + elemCountL ns

end

mutual

/-- Concatenated text content of a node. -/
def flatTextN : Node → Str
  | .text s => s
  | .elem _ _ cs => flatTextL cs

/-- Concatenated text content of a node list. -/
def flatTextL : List Node → Str
  | [] => []
  | n :: ns => flatTextN n ++ flatTextL ns

end

/-- Does the node list consist of exactly one text node holding `t`? -/
def isTextOnly (t : Str) : List Node → Bool
  | [Node.text u] => u == t
  | _ => false

mutual

/-- Does the node contain, at any depth, a wrapper exactly as the marker
inserts it: a `span` element with class `cls` whose content is the single
text node `t`? -/
def hasSpanN (cls t : Str) : Node → Bool
  | .text _ => false
  | .elem tag k cs => (tag == spanTag && k == cls && isTextOnly t cs) || hasSpanL cls t cs

/-- See `hasSpanN`. -/
def hasSpanL (cls t : Str) : List Node → Bool
  | [] => false
  | n :: ns => hasSpanN cls t n || hasSpanL cls t ns

end

mutual

/-- Does some text node of the node, at any depth, contain `t` as a
substring? -/
def hasMatchN (t : Str) : Node → Bool
  | .text s => containsSub t s
  | .elem _ _ cs => hasMatchL t cs

/-- See `hasMatchN`. -/
def hasMatchL (t : Str) : List Node → Bool
  | [] => false
  | n :: ns => hasMatchN t n || hasMatchL t ns

end

/-- Content of the leading text node of a node list (empty if the list does
not start with a text node). -/
def headText : List Node → Str
  | Node.text u :: _ => u
  | _ => []

/-! ### Basic lemmas about the observation functions -/

theorem elemCountL_append (a b : List Node) :
    elemCountL (a ++ b) = elemCountL a + elemCountL b := by
  induction a with
  | nil => simp [elemCountL]
  | cons n ns ih => simp [elemCountL, ih]; omega

theorem flatTextL_append (a b : List Node) :
    flatTextL (a ++ b) = flatTextL a ++ flatTextL b := by
  induction a with
  | nil => simp [flatTextL]
  | cons n ns ih => simp [flatTextL, ih]

theorem hasSpanL_append (cls t : Str) (a b : List Node) :
    hasSpanL cls t (a ++ b) = (hasSpanL cls t a || hasSpanL cls t b) := by
  induction a with
  | nil => simp [hasSpanL]
  | cons n ns ih => simp [hasSpanL, ih, Bool.or_assoc]

theorem hasMatchL_append (t : Str) (a b : List Node) :
    hasMatchL t (a ++ b) = (hasMatchL t a || hasMatchL t b) := by
  induction a with
  | nil => simp [hasMatchL]
  | cons n ns ih => simp [hasMatchL, ih, Bool.or_assoc]

theorem elemCountL_consText (x : Char) (ns : List Node) :
    elemCountL (consText x ns) = elemCountL ns := by
  cases ns with
  | nil => simp [consText, elemCountL, elemCountN]
  | cons n rest => cases n <;> simp [consText, elemCountL, elemCountN]

theorem flatTextL_consText (x : Char) (ns : List Node) :
    flatTextL (consText x ns) = x :: flatTextL ns := by
  cases ns with
  | nil => simp [consText, flatTextL, flatTextN]
  | cons n rest => cases n <;> simp [consText, flatTextL, flatTextN]

theorem headText_consText (x : Char) (ns : List Node) :
    headText (consText x ns) = x :: headText ns := by
  cases ns with
  | nil => simp [consText, headText]
  | cons n rest => cases n <;> simp [consText, headText]

theorem hasSpanL_consText (cls t : Str) (x : Char) (ns : List Node) :
    hasSpanL cls t (consText x ns) = hasSpanL cls t ns := by
  cases ns with
  | nil => simp [consText, hasSpanL, hasSpanN]
  | cons n rest => cases n <;> simp [consText, hasSpanL, hasSpanN]

theorem one_le_elemCount_wrapTextGo (cls : Str) (c : Char) (tr : Str) :
    ∀ s : Str, containsSub (c :: tr) s = true →
      1 ≤ elemCountL (wrapTextGo cls c tr 0 s) := by
  intro s h
  induction s with
  | nil => simp [containsSub, List.isPrefixOf] at h
  | cons x rest ih =>
    by_cases hp : (c :: tr).isPrefixOf (x :: rest) = true
    · simp [wrapTextGo, hp, elemCountL, elemCountN]
    · simp [containsSub, hp] at h
      simp [wrapTextGo, hp, elemCountL_consText]
      exact ih h

theorem hasSpanL_wrapTextGo (cls : Str) (c : Char) (tr : Str) :
    ∀ s : Str, containsSub (c :: tr) s = true →
      hasSpanL cls (c :: tr) (wrapTextGo cls c tr 0 s) = true := by
  intro s h
  induction s with
  | nil => simp [containsSub, List.isPrefixOf] at h
  | cons x rest ih =>
    by_cases hp : (c :: tr).isPrefixOf (x :: rest) = true
    · simp [wrapTextGo, hp, hasSpanL, hasSpanN, isTextOnly]
    · simp [containsSub, hp] at h
      simp [wrapTextGo, hp, hasSpanL_consText]
      exact ih h

theorem flatTextL_wrapTextGo (cls : Str) (c : Char) (tr : Str) :
    ∀ (s : Str) (n : Nat), flatTextL (wrapTextGo cls c tr n s) = s.drop n := by
  intro s
  induction s with
  | nil => intro n; cases n <;> simp [wrapTextGo, flatTextL]
  | cons x rest ih =>
    intro n
    cases n with
    | succ m => simpa [wrapTextGo, flatTextL] using ih m
    | zero =>
      by_cases hp : (c :: tr).isPrefixOf (x :: rest) = true
      · obtain ⟨u, hu⟩ := List.isPrefixOf_iff_prefix.mp hp
        obtain ⟨hx, hrest⟩ : c = x ∧ tr ++ u = rest := by
          simpa using hu
        simp only [wrapTextGo, hp, if_pos, flatTextL, flatTextN, elemCountL]
        rw [ih tr.length, ← hrest, List.drop_left]
        simp [hx]
      · simp only [wrapTextGo, hp, if_neg, Bool.not_eq_true]
        rw [flatTextL_consText, ih 0]
        simp

theorem headText_wrapTextGo_prefix (cls : Str) (c : Char) (tr : Str) :
    ∀ (s : Str) (n : Nat), headText (wrapTextGo cls c tr n s) <+: s.drop n := by
  intro s
  induction s with
  | nil => intro n; cases n <;> simp [wrapTextGo, headText]
  | cons x rest ih =>
    intro n
    cases n with
    | succ m => simpa [wrapTextGo] using ih m
    | zero =>
      by_cases hp : (c :: tr).isPrefixOf (x :: rest) = true
      · simp [wrapTextGo, hp, headText, List.nil_prefix]
      · simp only [wrapTextGo, hp, if_neg, Bool.not_eq_true, List.drop_zero]
        rw [headText_consText]
        exact List.cons_prefix_cons.mpr ⟨rfl, by simpa using ih 0⟩

theorem containsSub_singleton_false (c : Char) (tr : Str) (x : Char)
    (rest : Str) (hp : ¬ (c :: tr).isPrefixOf (x :: rest) = true) :
    containsSub (c :: tr) [x] = false := by
  simp only [containsSub, List.isPrefixOf, Bool.or_eq_false_iff]
  constructor
  · by_cases hcx : c = x
    · subst hcx
      cases tr with
      | nil => exact absurd (by simp [List.isPrefixOf]) hp
      | cons a b => simp [List.isPrefixOf]
    · simp [List.isPrefixOf, hcx]
  · trivial

theorem wrapTextGo_nodes (cls : Str) (c : Char) (tr : Str) :
    ∀ (s : Str) (n : Nat) (nd : Node), nd ∈ wrapTextGo cls c tr n s →
      nd = Node.elem spanTag cls [Node.text (c :: tr)] ∨
      ∃ u, nd = Node.text u ∧ containsSub (c :: tr) u = false := by
  intro s
  induction s with
  | nil => intro n nd h; cases n <;> simp [wrapTextGo] at h
  | cons x rest ih =>
    intro n nd h
    cases n with
    | succ m => exact ih m nd (by simpa [wrapTextGo] using h)
    | zero =>
      by_cases hp : (c :: tr).isPrefixOf (x :: rest) = true
      · simp only [wrapTextGo, hp, if_pos] at h
        rcases List.mem_cons.mp h with h | h
        · exact Or.inl h
        · exact ih tr.length nd h
      · simp only [wrapTextGo, hp, Bool.false_eq_true, if_neg,
          not_false_eq_true] at h
        rcases hw : wrapTextGo cls c tr 0 rest with _ | ⟨hd, tlw⟩
        · rw [hw] at h
          simp only [consText, List.mem_singleton] at h
          exact Or.inr ⟨[x], h, containsSub_singleton_false c tr x rest hp⟩
        · rw [hw] at h
          cases hd with
          | text u =>
            simp only [consText, List.mem_cons] at h
            rcases h with h | h
            · refine Or.inr ⟨x :: u, h, ?_⟩
              have hu : containsSub (c :: tr) u = false := by
                have := ih 0 (Node.text u) (by rw [hw]; exact List.mem_cons_self _ _)
                rcases this with h' | ⟨u', hu', hc⟩
                · cases h'
                · cases hu'; exact hc
              have hpre : ¬ ((c :: tr).isPrefixOf (x :: u) = true) := by
                intro hx
                apply hp
                rw [List.isPrefixOf_iff_prefix] at hx ⊢
                refine hx.trans (List.cons_prefix_cons.mpr ⟨rfl, ?_⟩)
                have := headText_wrapTextGo_prefix cls c tr rest 0
                rw [hw] at this
                simpa [headText] using this
              simp only [containsSub, Bool.or_eq_false_iff]
              exact ⟨Bool.eq_false_iff.mpr hpre, hu⟩
            · exact ih 0 nd (by rw [hw]; exact List.mem_cons_of_mem _ h)
          | elem a b cs' =>
            simp only [consText, List.mem_cons] at h
            rcases h with h | h
            · exact Or.inr ⟨[x], h, containsSub_singleton_false c tr x rest hp⟩
            · exact ih 0 nd (by rw [hw]; simpa using h)

/-! ### Effect of one annotation application on a block -/

theorem elemCount_le_markNode (cls : Str) (c : Char) (tr : Str) :
    ∀ n : Node, elemCountN n ≤ elemCountL (markNode cls c tr n) :=
  @Node.rec (fun n => elemCountN n ≤ elemCountL (markNode cls c tr n))
    (fun ns => elemCountL ns ≤ elemCountL (markNodes cls c tr ns))
    (fun s => by
      by_cases h : containsSub (c :: tr) s = true <;>
        simp [markNode, h, elemCountN, elemCountL])
    (fun tag k cs ih => by
      simp only [markNode, elemCountN, elemCountL]
      omega)
    (by simp [markNodes, elemCountL])
    (fun hd tl ih1 ih2 => by
      simp only [markNodes, elemCountL, elemCountL_append]
      omega)

theorem elemCount_le_markNodes (cls : Str) (c : Char) (tr : Str)
    (ns : List Node) : elemCountL ns ≤ elemCountL (markNodes cls c tr ns) := by
  induction ns with
  | nil => simp [markNodes]
  | cons n rest ih =>
    have := elemCount_le_markNode cls c tr n
    simp only [markNodes, elemCountL, elemCountL_append]
    omega

theorem markNode_eq_or_count_lt (cls : Str) (c : Char) (tr : Str) :
    ∀ n : Node, markNode cls c tr n = [n] ∨
      elemCountN n < elemCountL (markNode cls c tr n) :=
  @Node.rec (fun n => markNode cls c tr n = [n] ∨
      elemCountN n < elemCountL (markNode cls c tr n))
    (fun ns => markNodes cls c tr ns = ns ∨
      elemCountL ns < elemCountL (markNodes cls c tr ns))
    (fun s => by
      by_cases h : containsSub (c :: tr) s = true
      · right
        simp only [markNode, h, if_pos, elemCountN]
        exact one_le_elemCount_wrapTextGo cls c tr s h
      · left; simp [markNode, h])
    (fun tag k cs ih => by
      rcases ih with ih | ih
      · left; simp [markNode, ih]
      · right; simp only [markNode, elemCountN, elemCountL]; omega)
    (Or.inl (by simp [markNodes]))
    (fun hd tl ih1 ih2 => by
      have m1 := elemCount_le_markNode cls c tr hd
      have m2 := elemCount_le_markNodes cls c tr tl
      rcases ih1 with ih1 | ih1 <;> rcases ih2 with ih2 | ih2
      · left; simp [markNodes, ih1, ih2]
      · right; simp only [markNodes, elemCountL, elemCountL_append]; omega
      · right; simp only [markNodes, elemCountL, elemCountL_append]; omega
      · right; simp only [markNodes, elemCountL, elemCountL_append]; omega)

theorem markNodes_eq_or_count_lt (cls : Str) (c : Char) (tr : Str)
    (ns : List Node) : markNodes cls c tr ns = ns ∨
      elemCountL ns < elemCountL (markNodes cls c tr ns) := by
  induction ns with
  | nil => left; simp [markNodes]
  | cons n rest ih =>
    have m1 := elemCount_le_markNode cls c tr n
    have m2 := elemCount_le_markNodes cls c tr rest
    rcases markNode_eq_or_count_lt cls c tr n with h1 | h1 <;>
      rcases ih with h2 | h2
    · left; simp [markNodes, h1, h2]
    · right; simp only [markNodes, elemCountL, elemCountL_append]; omega
    · right; simp only [markNodes, elemCountL, elemCountL_append]; omega
    · right; simp only [markNodes, elemCountL, elemCountL_append]; omega

theorem markNode_eq_or_hasSpan (cls : Str) (c : Char) (tr : Str) :
    ∀ n : Node, markNode cls c tr n = [n] ∨
      hasSpanL cls (c :: tr) (markNode cls c tr n) = true :=
  @Node.rec (fun n => markNode cls c tr n = [n] ∨
      hasSpanL cls (c :: tr) (markNode cls c tr n) = true)
    (fun ns => markNodes cls c tr ns = ns ∨
      hasSpanL cls (c :: tr) (markNodes cls c tr ns) = true)
    (fun s => by
      by_cases h : containsSub (c :: tr) s = true
      · right
        simp only [markNode, h, if_pos]
        exact hasSpanL_wrapTextGo cls c tr s h
      · left; simp [markNode, h])
    (fun tag k cs ih => by
      rcases ih with ih | ih
      · left; simp [markNode, ih]
      · right; simp [markNode, hasSpanL, hasSpanN, ih])
    (Or.inl (by simp [markNodes]))
    (fun hd tl ih1 ih2 => by
      rcases ih1 with ih1 | ih1
      · rcases ih2 with ih2 | ih2
        · left; simp [markNodes, ih1, ih2]
        · right; simp [markNodes, hasSpanL_append, ih2]
      · right; simp [markNodes, hasSpanL_append, ih1])

theorem markNodes_eq_or_hasSpan (cls : Str) (c : Char) (tr : Str)
    (ns : List Node) : markNodes cls c tr ns = ns ∨
      hasSpanL cls (c :: tr) (markNodes cls c tr ns) = true := by
  induction ns with
  | nil => left; simp [markNodes]
  | cons n rest ih =>
    rcases markNode_eq_or_hasSpan cls c tr n with h1 | h1
    · rcases ih with h2 | h2
      · left; simp [markNodes, h1, h2]
      · right; simp [markNodes, hasSpanL_append, h2]
    · right; simp [markNodes, hasSpanL_append, h1]

theorem containsSub_self (c : Char) (tr : Str) :
    containsSub (c :: tr) (c :: tr) = true := by
  simp [containsSub, List.isPrefixOf_iff_prefix]

theorem hasSpan_hasMatch (cls : Str) (c : Char) (tr : Str) :
    ∀ n : Node, hasSpanN cls (c :: tr) n = true →
      hasMatchN (c :: tr) n = true :=
  @Node.rec (fun n => hasSpanN cls (c :: tr) n = true →
      hasMatchN (c :: tr) n = true)
    (fun ns => hasSpanL cls (c :: tr) ns = true →
      hasMatchL (c :: tr) ns = true)
    (fun s h => by simp [hasSpanN] at h)
    (fun tag k cs ih h => by
      simp only [hasSpanN, Bool.or_eq_true, Bool.and_eq_true] at h
      rcases h with ⟨-, hto⟩ | h
      · rcases hcs : cs with _ | ⟨hd, tl⟩
        · rw [hcs] at hto; simp [isTextOnly] at hto
        · rw [hcs] at hto
          rcases hd with u | _
          · rcases tl with _ | _
            · have hu : u = c :: tr := by
                simpa [isTextOnly] using hto
              simp [hasMatchN, hasMatchL, hu, containsSub_self]
            · simp [isTextOnly] at hto
          · simp [isTextOnly] at hto
      · simp only [hasMatchN]; exact ih h)
    (fun h => by simp [hasSpanL] at h)
    (fun hd tl ih1 ih2 h => by
      simp only [hasSpanL, Bool.or_eq_true] at h
      rcases h with h | h
      · simp [hasMatchL, ih1 h]
      · simp [hasMatchL, ih2 h])

theorem hasSpanL_hasMatchL (cls : Str) (c : Char) (tr : Str)
    (ns : List Node) (h : hasSpanL cls (c :: tr) ns = true) :
    hasMatchL (c :: tr) ns = true := by
  induction ns with
  | nil => simp [hasSpanL] at h
  | cons n rest ih =>
    simp only [hasSpanL, Bool.or_eq_true] at h
    rcases h with h | h
    · simp [hasMatchL, hasSpan_hasMatch cls c tr n h]
    · simp [hasMatchL, ih h]

theorem hasMatch_count_lt (cls : Str) (c : Char) (tr : Str) :
    ∀ n : Node, hasMatchN (c :: tr) n = true →
      elemCountN n < elemCountL (markNode cls c tr n) :=
  @Node.rec (fun n => hasMatchN (c :: tr) n = true →
      elemCountN n < elemCountL (markNode cls c tr n))
    (fun ns => hasMatchL (c :: tr) ns = true →
      elemCountL ns < elemCountL (markNodes cls c tr ns))
    (fun s h => by
      have hc : containsSub (c :: tr) s = true := by simpa [hasMatchN] using h
      simp only [markNode, hc, if_pos, elemCountN]
      exact one_le_elemCount_wrapTextGo cls c tr s hc)
    (fun tag k cs ih h => by
      have hm : hasMatchL (c :: tr) cs = true := by simpa [hasMatchN] using h
      have := ih hm
      simp only [markNode, elemCountN, elemCountL]
      omega)
    (fun h => by simp [hasMatchL] at h)
    (fun hd tl ih1 ih2 h => by
      have m1 := elemCount_le_markNode cls c tr hd
      have m2 := elemCount_le_markNodes cls c tr tl
      simp only [hasMatchL, Bool.or_eq_true] at h
      simp only [markNodes, elemCountL, elemCountL_append]
      rcases h with h | h
      · have := ih1 h; omega
      · have := ih2 h; omega)

theorem hasMatchL_count_lt (cls : Str) (c : Char) (tr : Str)
    (ns : List Node) (h : hasMatchL (c :: tr) ns = true) :
    elemCountL ns < elemCountL (markNodes cls c tr ns) := by
  induction ns with
  | nil => simp [hasMatchL] at h
  | cons n rest ih =>
    have m1 := elemCount_le_markNode cls c tr n
    have m2 := elemCount_le_markNodes cls c tr rest
    simp only [hasMatchL, Bool.or_eq_true] at h
    simp only [markNodes, elemCountL, elemCountL_append]
    rcases h with h | h
    · have := hasMatch_count_lt cls c tr n h; omega
    · have := ih h; omega

theorem elemCount_le_applyAnnot (b : List Node) (a : Str × Str) :
    elemCountL b ≤ elemCountL (applyAnnot b a) := by
  obtain ⟨cls, t⟩ := a
  cases t with
  | nil => simp [applyAnnot]
  | cons c tr => exact elemCount_le_markNodes cls c tr b

theorem elemCount_le_markBlock (A : List (Str × Str)) :
    ∀ b : List Node, elemCountL b ≤ elemCountL (markBlock A b) := by
  induction A with
  | nil => intro b; simp [markBlock]
  | cons a A' ih =>
    intro b
    have h1 := elemCount_le_applyAnnot b a
    have h2 := ih (applyAnnot b a)
    simp only [markBlock, List.foldl_cons] at h2 ⊢
    omega

theorem markBlock_ne_hasSpan (A : List (Str × Str)) :
    ∀ b : List Node, markBlock A b ≠ b →
      ∃ p ∈ A, p.2 ≠ [] ∧ hasSpanL p.1 p.2 (markBlock A b) = true := by
  induction A with
  | nil => intro b h; simp [markBlock] at h
  | cons a A' ih =>
    intro b h
    rw [show markBlock (a :: A') b = markBlock A' (applyAnnot b a) from rfl] at h ⊢
    by_cases hch : markBlock A' (applyAnnot b a) = applyAnnot b a
    · rw [hch] at h ⊢
      obtain ⟨cls, t⟩ := a
      cases t with
      | nil => simp [applyAnnot] at h
      | cons c tr =>
        refine ⟨(cls, c :: tr), List.mem_cons_self _ _, by simp, ?_⟩
        rcases markNodes_eq_or_hasSpan cls c tr b with he | hs
        · exact absurd he h
        · exact hs
    · obtain ⟨p, hp, hne, hs⟩ := ih (applyAnnot b a) hch
      exact ⟨p, List.mem_cons_of_mem _ hp, hne, hs⟩

theorem hasMatch_markBlock_count_lt (A : List (Str × Str)) :
    ∀ b : List Node, (∃ p ∈ A, p.2 ≠ [] ∧ hasMatchL p.2 b = true) →
      elemCountL b < elemCountL (markBlock A b) := by
  induction A with
  | nil => intro b h; simp at h
  | cons a A' ih =>
    intro b h
    rw [show markBlock (a :: A') b = markBlock A' (applyAnnot b a) from rfl]
    obtain ⟨p, hp, hne, hm⟩ := h
    rcases List.mem_cons.mp hp with rfl | hp'
    · obtain ⟨cls, t⟩ := p
      cases t with
      | nil => simp at hne
      | cons c tr =>
        have h1 : elemCountL b < elemCountL (applyAnnot b (cls, c :: tr)) :=
          hasMatchL_count_lt cls c tr b hm
        have h2 := elemCount_le_markBlock A' (applyAnnot b (cls, c :: tr))
        omega
    · by_cases hb1 : applyAnnot b a = b
      · rw [hb1]
        exact ih b ⟨p, hp', hne, hm⟩
      · obtain ⟨cls, t⟩ := a
        cases t with
        | nil => simp [applyAnnot] at hb1
        | cons c tr =>
          have h1 : elemCountL b < elemCountL (applyAnnot b (cls, c :: tr)) := by
            rcases markNodes_eq_or_count_lt cls c tr b with he | hlt
            · exact absurd he hb1
            · exact hlt
          have h2 := elemCount_le_markBlock A' (applyAnnot b (cls, c :: tr))
          omega

/-! ### Claims about the span-annotation engine -/

/-- C1 (counterexample): annotating the block `<p>我吃苹果</p>` with the
triple `(predicate 吃, object 苹果)` and then running the same annotation
pass again does not reproduce the single-pass content: the second pass
re-matches the text inside the previously inserted wrappers and wraps it
again (the element count grows from 2 to 4). -/
theorem mark_svo_twice_changes_block_cex :
    markSvoInSoup [("我吃苹果", [⟨"", "吃", "苹果"⟩])]
        (markSvoInSoup [("我吃苹果", [⟨"", "吃", "苹果"⟩])]
          [Node.text "我吃苹果".toList]) ≠
      markSvoInSoup [("我吃苹果", [⟨"", "吃", "苹果"⟩])]
        [Node.text "我吃苹果".toList] :=
  fun h => absurd (congrArg elemCountL h) (by decide)

/-- C1 (amended): the annotation pass is idempotent exactly when it changes
nothing.  Whenever a pass wraps at least one span, the wrapped text remains
an enumerable text node (wrapped spans are not excluded from
`find_all(string=True)`), so a second identical pass wraps it again and the
repeated pass differs from the single pass; conversely a pass that leaves
the block unchanged trivially stays idempotent. -/
theorem markBlock_idempotent_iff_no_change (A : List (Str × Str))
    (b : List Node) :
    markBlock A (markBlock A b) = markBlock A b ↔ markBlock A b = b := by
  constructor
  · intro h
    by_contra hne
    obtain ⟨p, hp, hne2, hspan⟩ := markBlock_ne_hasSpan A b hne
    obtain ⟨cls, t⟩ := p
    cases t with
    | nil => exact hne2 rfl
    | cons c tr =>
      have hm : hasMatchL (c :: tr) (markBlock A b) = true :=
        hasSpanL_hasMatchL cls c tr _ hspan
      have hlt := hasMatch_markBlock_count_lt A (markBlock A b)
        ⟨(cls, c :: tr), hp, by simp, hm⟩
      rw [h] at hlt
      omega
  · intro h; rw [h]; exact h

/-- C2 (counterexample): applying the object annotation `苹果` to the single
text node `苹果和苹果` wraps both occurrences (Python `str.replace` replaces
every occurrence), not just the leftmost one: the result has two wrapper
elements, and differs from the claimed first-occurrence-only result. -/
theorem mark_replaces_all_occurrences_cex :
    applyAnnot [Node.text "苹果和苹果".toList]
        ("svo-object".toList, "苹果".toList) =
      [Node.elem spanTag "svo-object".toList [Node.text "苹果".toList],
       Node.text "和".toList,
       Node.elem spanTag "svo-object".toList [Node.text "苹果".toList]] ∧
    applyAnnot [Node.text "苹果和苹果".toList]
        ("svo-object".toList, "苹果".toList) ≠
      [Node.elem spanTag "svo-object".toList [Node.text "苹果".toList],
       Node.text "和苹果".toList] :=
  ⟨rfl, fun h => absurd (congrArg elemCountL h) (by decide)⟩

/-- C2 (amended): when a text node's content contains the (non-empty) span
text, the replacement step wraps every non-overlapping occurrence, leftmost
first, not only the first one: the node is split into an alternation of
wrapper elements (each holding exactly the span text, with the annotation's
class) and residual text segments none of which still contains the span
text, and the concatenated content of the produced nodes is the original
content. -/
theorem markNode_text_wraps_every_occurrence (cls : Str) (c : Char)
    (tr : Str) (s : Str) (hcont : containsSub (c :: tr) s = true) :
    flatTextL (markNode cls c tr (Node.text s)) = s ∧
    hasSpanL cls (c :: tr) (markNode cls c tr (Node.text s)) = true ∧
    ∀ nd ∈ markNode cls c tr (Node.text s),
      nd = Node.elem spanTag cls [Node.text (c :: tr)] ∨
      ∃ u, nd = Node.text u ∧ containsSub (c :: tr) u = false := by
  simp only [markNode, hcont, if_pos]
  refine ⟨?_, hasSpanL_wrapTextGo cls c tr s hcont, wrapTextGo_nodes cls c tr s 0⟩
  simpa using flatTextL_wrapTextGo cls c tr s 0

/-- C2 (witness): the amended statement instantiated at the block content
`苹果和苹果` and the object annotation `苹果`. -/
theorem markNode_text_wraps_every_occurrence_witness :
    containsSub ('苹' :: "果".toList) "苹果和苹果".toList = true ∧
    (flatTextL (markNode "svo-object".toList '苹' "果".toList
        (Node.text "苹果和苹果".toList)) = "苹果和苹果".toList ∧
     hasSpanL "svo-object".toList ('苹' :: "果".toList)
        (markNode "svo-object".toList '苹' "果".toList
          (Node.text "苹果和苹果".toList)) = true ∧
     ∀ nd ∈ markNode "svo-object".toList '苹' "果".toList
        (Node.text "苹果和苹果".toList),
        nd = Node.elem spanTag "svo-object".toList
          [Node.text ('苹' :: "果".toList)] ∨
        ∃ u, nd = Node.text u ∧
          containsSub ('苹' :: "果".toList) u = false) :=
  ⟨by decide,
   markNode_text_wraps_every_occurrence "svo-object".toList '苹' "果".toList
     "苹果和苹果".toList (by decide)⟩

/-! ### Support lemmas for the role-extraction engine -/

theorem optMapM_isSome {α β : Type} (f : α → Option β) :
    ∀ l : List α, (∀ a ∈ l, (f a).isSome = true) →
      (optMapM f l).isSome = true := by
  intro l h
  induction l with
  | nil => simp [optMapM]
  | cons a rest ih =>
    obtain ⟨x, hx⟩ := Option.isSome_iff_exists.mp (h a (List.mem_cons_self _ _))
    obtain ⟨xs, hxs⟩ := Option.isSome_iff_exists.mp
      (ih (fun b hb => h b (List.mem_cons_of_mem _ hb)))
    simp [optMapM, hx, hxs]

theorem optMapM_mem {α β : Type} (f : α → Option β) :
    ∀ (l : List α) (rs : List β), optMapM f l = some rs →
      ∀ r ∈ rs, ∃ a ∈ l, f a = some r := by
  intro l
  induction l with
  | nil =>
    intro rs h r hr
    simp only [optMapM] at h
    cases h
    simp at hr
  | cons a rest ih =>
    intro rs h r hr
    rcases hfa : f a with _ | x
    · simp [optMapM, hfa] at h
    · rcases hrest : optMapM f rest with _ | xs
      · simp [optMapM, hfa, hrest] at h
      · simp [optMapM, hfa, hrest] at h
        subst h
        rcases List.mem_cons.mp hr with rfl | hr'
        · exact ⟨a, List.mem_cons_self _ _, hfa⟩
        · obtain ⟨b, hb, hfb⟩ := ih xs hrest r hr'
          exact ⟨b, List.mem_cons_of_mem _ hb, hfb⟩

theorem getChildrenAux_lt (hd : Nat) (rels : List String) :
    ∀ (l : DepArcs) (k j : Nat), j ∈ getChildrenAux hd rels k l →
      k ≤ j ∧ j < k + l.length := by
  intro l
  induction l with
  | nil => intro k j h; simp [getChildrenAux] at h
  | cons p rest ih =>
    intro k j h
    obtain ⟨hh, rr⟩ := p
    by_cases hc : hh = (hd : Int) + 1 ∧ rr ∈ rels
    · simp only [getChildrenAux, if_pos hc, List.mem_cons] at h
      rcases h with rfl | h
      · simp
      · have := ih (k + 1) j h
        constructor <;> [omega; (simp only [List.length_cons]; omega)]
    · simp only [getChildrenAux, if_neg hc] at h
      have := ih (k + 1) j h
      constructor <;> [omega; (simp only [List.length_cons]; omega)]

theorem getChildren_lt (deps : DepArcs) (hd : Nat) (rels : List String)
    (j : Nat) (h : j ∈ getChildren deps hd rels) : j < deps.length := by
  have := getChildrenAux_lt hd rels deps 0 j h
  omega

theorem expandConjAux_mem (deps : DepArcs) (P : Nat → Prop)
    (hP : ∀ j, j < deps.length → P j) :
    ∀ (fuel : Nat) (queue visited : List Nat), (∀ v ∈ visited, P v) →
      ∀ m ∈ expandConjAux deps fuel queue visited, P m := by
  intro fuel
  induction fuel with
  | zero =>
    intro queue visited hv m hm
    exact hv m (by simpa [expandConjAux] using hm)
  | succ f ih =>
    intro queue visited hv m hm
    cases queue with
    | nil => exact hv m (by simpa [expandConjAux] using hm)
    | cons curr rest =>
      refine ih _ _ ?_ m (by simpa [expandConjAux] using hm)
      intro v hvv
      rcases List.mem_append.mp hvv with h | h
      · exact hv v h
      · exact hP v (getChildren_lt deps curr _ v (List.mem_filter.mp h).1)

theorem expandConj_mem_bound (deps : DepArcs) (idx m : Nat)
    (hm : m ∈ expandConj deps idx) : m = idx ∨ m < deps.length := by
  rw [expandConj, List.mem_insertionSort] at hm
  exact expandConjAux_mem deps (fun v => v = idx ∨ v < deps.length)
    (fun j hj => Or.inr hj) _ _ _ (by simp) m hm

theorem expandConj_mem_lt (deps : DepArcs) (idx m : Nat)
    (hidx : idx < deps.length) (hm : m ∈ expandConj deps idx) :
    m < deps.length := by
  rcases expandConj_mem_bound deps idx m hm with rfl | h
  · exact hidx
  · exact h

theorem subjIdxsOf_isSome (deps : DepArcs) (vidx : Nat)
    (h : vidx < deps.length) : (subjIdxsOf deps vidx).isSome = true := by
  unfold subjIdxsOf
  by_cases h0 : getChildren deps vidx ["nsubj"] = []
  · rw [if_pos h0, List.getElem?_eq_getElem h]
    rfl
  · rw [if_neg h0]
    rfl

theorem subjIdxsOf_mem_lt (deps : DepArcs) (vidx : Nat) (S : List Nat)
    (hS : subjIdxsOf deps vidx = some S) : ∀ m ∈ S, m < deps.length := by
  unfold subjIdxsOf at hS
  by_cases h0 : getChildren deps vidx ["nsubj"] = []
  · rw [if_pos h0] at hS
    rcases hv : deps[vidx]? with _ | hd
    · rw [hv] at hS; simp at hS
    · rw [hv] at hS
      simp only [Option.bind_eq_bind, Option.some_bind, Option.pure_def,
        Option.some.injEq] at hS
      intro m hm
      rw [← hS] at hm
      by_cases hc : hd.1 - 1 ≥ 0 ∧ hd.2 = "conj"
      · rw [if_pos hc] at hm
        exact getChildren_lt deps _ _ m hm
      · rw [if_neg hc] at hm
        simp at hm
  · rw [if_neg h0] at hS
    cases hS
    intro m hm
    exact getChildren_lt deps _ _ m hm

theorem subjectsOf_isSome (deps : DepArcs) (vidx : Nat)
    (h : vidx < deps.length) : (subjectsOf deps vidx).isSome = true := by
  unfold subjectsOf
  obtain ⟨S, hS⟩ := Option.isSome_iff_exists.mp (subjIdxsOf_isSome deps vidx h)
  rw [hS]
  rfl

theorem subjectsOf_mem_lt (deps : DepArcs) (vidx : Nat) (S : List Nat)
    (hS : subjectsOf deps vidx = some S) : ∀ m ∈ S, m < deps.length := by
  unfold subjectsOf at hS
  rcases h0 : subjIdxsOf deps vidx with _ | S0
  · rw [h0] at hS; simp at hS
  · rw [h0] at hS
    simp only [Option.map_some', Option.some.injEq] at hS
    intro m hm
    rw [← hS] at hm
    obtain ⟨i, hi, hmi⟩ := List.mem_flatMap.mp hm
    exact expandConj_mem_lt deps i m (subjIdxsOf_mem_lt deps vidx S0 h0 i hi) hmi

theorem directObjects_mem_lt (deps : DepArcs) (vidx : Nat) :
    ∀ m ∈ directObjects deps vidx, m < deps.length := by
  intro m hm
  obtain ⟨i, hi, hmi⟩ := List.mem_flatMap.mp hm
  exact expandConj_mem_lt deps i m (getChildren_lt deps _ _ i hi) hmi

theorem passiveObjects_isSome (words pos : List String) (deps : DepArcs)
    (vidx : Nat) (hv : vidx < deps.length)
    (hpl : pos.length = words.length)
    (harcs : ∀ p ∈ deps, p.1 ≤ (words.length : Int)) :
    (passiveObjects words pos deps vidx).isSome = true := by
  unfold passiveObjects
  rw [List.getElem?_eq_getElem hv]
  simp only [Option.bind_eq_bind, Option.some_bind]
  by_cases hge : deps[vidx].1 - 1 ≥ 0
  · rw [if_pos hge]
    have hle : deps[vidx].1 ≤ (words.length : Int) :=
      harcs _ (List.getElem_mem hv)
    rw [List.getElem?_eq_getElem
      (by omega : (deps[vidx].1 - 1).toNat < pos.length)]
    simp only [Option.bind_eq_bind, Option.some_bind]
    by_cases htag : pos[(deps[vidx].1 - 1).toNat] = "LB" ∨
        pos[(deps[vidx].1 - 1).toNat] = "SB"
    · rw [if_pos htag]
      rfl
    · rw [if_neg htag]
      rw [List.getElem?_eq_getElem
        (by omega : (deps[vidx].1 - 1).toNat < words.length)]
      simp only [Option.bind_eq_bind, Option.some_bind, Option.pure_def]
      by_cases hbei : words[(deps[vidx].1 - 1).toNat] = "被"
      · rw [decide_eq_true hbei]
        rfl
      · rw [decide_eq_false hbei]
        rfl
  · rw [if_neg hge]
    rfl

theorem passiveObjects_mem_lt (words pos : List String) (deps : DepArcs)
    (vidx : Nat) (P : List Nat)
    (hP : passiveObjects words pos deps vidx = some P) :
    ∀ m ∈ P, m < deps.length := by
  unfold passiveObjects at hP
  rcases hv : deps[vidx]? with _ | hd
  · rw [hv] at hP; simp at hP
  · rw [hv] at hP
    simp only [Option.bind_eq_bind, Option.some_bind] at hP
    by_cases hge : hd.1 - 1 ≥ 0
    · rw [if_pos hge] at hP
      rcases hq : pos[(hd.1 - 1).toNat]? with _ | hpos
      · rw [hq] at hP; simp at hP
      · rw [hq] at hP
        simp only [Option.bind_eq_bind, Option.some_bind] at hP
        by_cases htag : hpos = "LB" ∨ hpos = "SB"
        · rw [if_pos htag] at hP
          simp only [Option.pure_def, Option.some_bind, if_pos,
            Option.some.injEq] at hP
          subst hP
          intro m hm
          obtain ⟨i, hi, hmi⟩ := List.mem_flatMap.mp hm
          exact expandConj_mem_lt deps i m (getChildren_lt deps _ _ i hi) hmi
        · rw [if_neg htag] at hP
          rcases hw : words[(hd.1 - 1).toNat]? with _ | hword
          · rw [hw] at hP; simp at hP
          · rw [hw] at hP
            simp only [Option.bind_eq_bind, Option.some_bind,
              Option.pure_def] at hP
            by_cases hbei : hword = "被"
            · rw [decide_eq_true hbei] at hP
              simp only [if_pos, Option.some.injEq] at hP
              subst hP
              intro m hm
              obtain ⟨i, hi, hmi⟩ := List.mem_flatMap.mp hm
              exact expandConj_mem_lt deps i m (getChildren_lt deps _ _ i hi) hmi
            · rw [decide_eq_false hbei] at hP
              simp only [Bool.false_eq_true, if_neg, not_false_eq_true,
                Option.some.injEq] at hP
              subst hP
              intro m hm
              simp at hm
    · rw [if_neg hge] at hP
      simp only [Option.pure_def, Option.some.injEq] at hP
      subst hP
      intro m hm
      simp at hm

theorem baFilterAux_isSome (pos : List String) (subjects : List Nat) :
    ∀ cands : List Nat, (∀ i ∈ cands, i < pos.length) →
      (baFilterAux pos subjects cands).isSome = true := by
  intro cands h
  induction cands with
  | nil => rfl
  | cons idx rest ih =>
    have hrest := ih (fun i hi => h i (List.mem_cons_of_mem _ hi))
    unfold baFilterAux
    by_cases hs : idx ∈ subjects
    · rw [if_pos hs]
      exact hrest
    · rw [if_neg hs,
        List.getElem?_eq_getElem (h idx (List.mem_cons_self _ _))]
      obtain ⟨r, hr⟩ := Option.isSome_iff_exists.mp hrest
      rw [Option.bind_eq_bind, Option.some_bind, hr]
      rfl

theorem baFilterAux_mem (pos : List String) (subjects : List Nat) :
    ∀ (cands kept : List Nat), baFilterAux pos subjects cands = some kept →
      ∀ i ∈ kept, i ∈ cands := by
  intro cands
  induction cands with
  | nil =>
    intro kept h i hi
    cases h
    simp at hi
  | cons idx rest ih =>
    intro kept h i hi
    unfold baFilterAux at h
    by_cases hs : idx ∈ subjects
    · rw [if_pos hs] at h
      exact List.mem_cons_of_mem _ (ih kept h i hi)
    · rw [if_neg hs] at h
      rcases hq : pos[idx]? with _ | p
      · rw [hq] at h; simp at h
      · rw [hq] at h
        rcases hrest : baFilterAux pos subjects rest with _ | r
        · rw [hrest] at h; simp at h
        · rw [hrest] at h
          simp only [Option.bind_eq_bind, Option.some_bind, Option.pure_def,
            Option.some.injEq] at h
          subst h
          by_cases hn : p = "NN" ∨ p = "NR" ∨ p = "PN"
          · rw [if_pos hn] at hi
            rcases List.mem_cons.mp hi with rfl | hi'
            · exact List.mem_cons_self _ _
            · exact List.mem_cons_of_mem _ (ih r hrest i hi')
          · rw [if_neg hn] at hi
            exact List.mem_cons_of_mem _ (ih r hrest i hi)

theorem baObjects_isSome (pos : List String) (deps : DepArcs) (vidx : Nat)
    (subjects objects2 : List Nat) (hpd : deps.length ≤ pos.length) :
    (baObjects pos deps vidx subjects objects2).isSome = true := by
  unfold baObjects
  by_cases hba : getChildren deps vidx ["aux:ba"] ≠ []
  · rw [if_pos hba]
    by_cases ho : objects2 = []
    · rw [if_pos ho]
      have hs := baFilterAux_isSome pos subjects
        (getChildren deps vidx ["dep", "obl", "dobj"])
        (fun i hi => lt_of_lt_of_le (getChildren_lt deps _ _ i hi) hpd)
      obtain ⟨kept, hk⟩ := Option.isSome_iff_exists.mp hs
      rw [hk]
      rfl
    · rw [if_neg ho]
      rfl
  · rw [if_neg hba]
    rfl

theorem baObjects_mem_lt (pos : List String) (deps : DepArcs) (vidx : Nat)
    (subjects objects2 B : List Nat)
    (hB : baObjects pos deps vidx subjects objects2 = some B) :
    ∀ m ∈ B, m < deps.length := by
  unfold baObjects at hB
  by_cases hba : getChildren deps vidx ["aux:ba"] ≠ []
  · rw [if_pos hba] at hB
    by_cases ho : objects2 = []
    · rw [if_pos ho] at hB
      rcases hk : baFilterAux pos subjects
          (getChildren deps vidx ["dep", "obl", "dobj"]) with _ | kept
      · rw [hk] at hB; simp at hB
      · rw [hk] at hB
        simp only [Option.bind_eq_bind, Option.some_bind, Option.pure_def,
          Option.some.injEq] at hB
        subst hB
        intro m hm
        obtain ⟨i, hi, hmi⟩ := List.mem_flatMap.mp hm
        have hic : i ∈ getChildren deps vidx ["dep", "obl", "dobj"] :=
          baFilterAux_mem pos subjects _ kept hk i hi
        exact expandConj_mem_lt deps i m (getChildren_lt deps _ _ i hic) hmi
    · rw [if_neg ho] at hB
      cases hB
      intro m hm
      simp at hm
  · rw [if_neg hba] at hB
    cases hB
    intro m hm
    simp at hm

theorem objectsOf_isSome (words pos : List String) (deps : DepArcs)
    (vidx : Nat) (subjects : List Nat) (hv : vidx < deps.length)
    (hpl : pos.length = words.length) (hdl : deps.length = words.length)
    (harcs : ∀ p ∈ deps, p.1 ≤ (words.length : Int)) :
    (objectsOf words pos deps vidx subjects).isSome = true := by
  unfold objectsOf
  obtain ⟨P, hP⟩ := Option.isSome_iff_exists.mp
    (passiveObjects_isSome words pos deps vidx hv hpl harcs)
  rw [hP]
  simp only [Option.bind_eq_bind, Option.some_bind]
  obtain ⟨B, hB⟩ := Option.isSome_iff_exists.mp
    (baObjects_isSome pos deps vidx subjects (directObjects deps vidx ++ P)
      (by omega))
  rw [hB]
  rfl

theorem objectsOf_mem_lt (words pos : List String) (deps : DepArcs)
    (vidx : Nat) (subjects O : List Nat)
    (hO : objectsOf words pos deps vidx subjects = some O) :
    ∀ m ∈ O, m < deps.length := by
  unfold objectsOf at hO
  rcases hP : passiveObjects words pos deps vidx with _ | P
  · rw [hP] at hO; simp at hO
  · rw [hP] at hO
    simp only [Option.bind_eq_bind, Option.some_bind] at hO
    rcases hB : baObjects pos deps vidx subjects
        (directObjects deps vidx ++ P) with _ | B
    · rw [hB] at hO; simp at hO
    · rw [hB] at hO
      simp only [Option.some_bind, Option.pure_def, Option.some.injEq] at hO
      subst hO
      intro m hm
      rcases List.mem_append.mp hm with hm' | hm'
      · rcases List.mem_append.mp hm' with hm'' | hm''
        · exact directObjects_mem_lt deps vidx m hm''
        · exact passiveObjects_mem_lt words pos deps vidx P hP m hm''
      · exact baObjects_mem_lt pos deps vidx subjects _ B hB m hm'

theorem renderIndices_isSome (words : List String) (idxs : List Nat)
    (h : ∀ i ∈ idxs, i < words.length) :
    (renderIndices words idxs).isSome = true := by
  unfold renderIndices
  have hs := optMapM_isSome (fun i => words[i]?) (sortedSet idxs) ?_
  · obtain ⟨surfs, hsurf⟩ := Option.isSome_iff_exists.mp hs
    rw [hsurf]
    rfl
  · intro i hi
    have : i ∈ idxs := by
      rw [sortedSet, List.mem_insertionSort, List.mem_dedup] at hi
      exact hi
    show (words[i]?).isSome = true
    rw [List.getElem?_eq_getElem (h i this)]
    rfl

theorem findVerbsAux_isSome (pos : List String) :
    ∀ (ws : List String) (k : Nat), k + ws.length ≤ pos.length →
      (findVerbsAux pos k ws).isSome = true := by
  intro ws
  induction ws with
  | nil => intro k hk; rfl
  | cons w rest ih =>
    intro k hk
    unfold findVerbsAux
    rw [List.getElem?_eq_getElem (by simp at hk; omega : k < pos.length)]
    have := ih (k + 1) (by simp at hk ⊢; omega)
    obtain ⟨vs, hvs⟩ := Option.isSome_iff_exists.mp this
    rw [Option.bind_eq_bind, Option.some_bind, hvs]
    rfl

theorem findVerbsAux_mem_bound (pos : List String) :
    ∀ (ws : List String) (k : Nat) (vs : List (Nat × String)),
      findVerbsAux pos k ws = some vs →
      ∀ p ∈ vs, k ≤ p.1 ∧ p.1 < k + ws.length := by
  intro ws
  induction ws with
  | nil =>
    intro k vs h p hp
    cases h
    simp at hp
  | cons w rest ih =>
    intro k vs h p hp
    unfold findVerbsAux at h
    rcases hq : pos[k]? with _ | tag
    · rw [hq] at h; simp at h
    · rw [hq] at h
      rcases hrest : findVerbsAux pos (k + 1) rest with _ | vs'
      · rw [hrest] at h; simp at h
      · rw [hrest] at h
        simp only [Option.bind_eq_bind, Option.some_bind, Option.pure_def,
          Option.some.injEq] at h
        subst h
        by_cases htag : tag = "VV"
        · rw [if_pos htag] at hp
          rcases List.mem_cons.mp hp with rfl | hp'
          · simp
          · have := ih (k + 1) vs' hrest p hp'
            simp only [List.length_cons]
            omega
        · rw [if_neg htag] at hp
          have := ih (k + 1) vs' hrest p hp
          simp only [List.length_cons]
          omega

theorem processVerb_isSome (words pos : List String) (deps : DepArcs)
    (vidx : Nat) (verb : String) (hv : vidx < deps.length)
    (hpl : pos.length = words.length) (hdl : deps.length = words.length)
    (harcs : ∀ p ∈ deps, p.1 ≤ (words.length : Int)) :
    (processVerb words pos deps vidx verb).isSome = true := by
  unfold processVerb
  obtain ⟨S, hS⟩ := Option.isSome_iff_exists.mp (subjectsOf_isSome deps vidx hv)
  rw [hS]
  simp only [Option.bind_eq_bind, Option.some_bind]
  obtain ⟨O, hO⟩ := Option.isSome_iff_exists.mp
    (objectsOf_isSome words pos deps vidx S hv hpl hdl harcs)
  rw [hO]
  simp only [Option.some_bind]
  obtain ⟨ss, hss⟩ := Option.isSome_iff_exists.mp
    (renderIndices_isSome words S
      (fun i hi => by have := subjectsOf_mem_lt deps vidx S hS i hi; omega))
  rw [hss]
  simp only [Option.some_bind]
  obtain ⟨os, hos⟩ := Option.isSome_iff_exists.mp
    (renderIndices_isSome words O
      (fun i hi => by have := objectsOf_mem_lt words pos deps vidx S O hO i hi; omega))
  rw [hos]
  rfl

/-! ### Claims C3 and C5: totality and the emptiness guard -/

/-- C3 (counterexample): extraction is not total on misaligned input.  With
one token but an empty tag array the verb scan indexes past the tag array
and fails, and with an aligned input whose head index points past the end of
the arrays the passive-marker check indexes past the tag array and fails —
the out-of-range head is not treated as "no governor". -/
theorem extract_misaligned_fails_cex :
    extractSentence ["吃"] [] [] = none ∧
    extractSentence ["吃"] ["VV"] [(5, "x")] = none := ⟨rfl, rfl⟩

/-- C3 (amended): extraction is total on aligned input: when the tag and arc
arrays have exactly the length of the token array and every head index is at
most the token count, extraction never fails.  (When the tags or arcs are
shorter than the tokens, or a head index points past the end of the arrays,
the code raises `IndexError` instead — see the counterexample.) -/
theorem extractSentence_total_of_aligned (words pos : List String)
    (deps : DepArcs) (hpl : pos.length = words.length)
    (hdl : deps.length = words.length)
    (harcs : ∀ p ∈ deps, p.1 ≤ (words.length : Int)) :
    (extractSentence words pos deps).isSome = true := by
  unfold extractSentence
  obtain ⟨vs, hvs⟩ := Option.isSome_iff_exists.mp
    (findVerbsAux_isSome pos words 0 (by omega))
  rw [show findVerbs words pos = findVerbsAux pos 0 words from rfl, hvs]
  simp only [Option.bind_eq_bind, Option.some_bind]
  have hall : ∀ vw ∈ vs, (processVerb words pos deps vw.1 vw.2).isSome = true := by
    intro vw hvw
    have hb := findVerbsAux_mem_bound pos words 0 vs hvs vw hvw
    exact processVerb_isSome words pos deps vw.1 vw.2 (by omega) hpl hdl harcs
  obtain ⟨rs, hrs⟩ := Option.isSome_iff_exists.mp
    (optMapM_isSome (fun vw => processVerb words pos deps vw.1 vw.2) vs hall)
  rw [hrs]
  rfl

/-- C3 (witness): the amended totality statement instantiated at the aligned
parse of 我爱Python. -/
theorem extractSentence_total_of_aligned_witness :
    (extractSentence ["我", "爱", "Python"] ["PN", "VV", "NN"]
      [(2, "nsubj"), (0, "root"), (2, "dobj")]).isSome = true :=
  extractSentence_total_of_aligned ["我", "爱", "Python"] ["PN", "VV", "NN"]
    [(2, "nsubj"), (0, "root"), (2, "dobj")] (by decide) (by decide)
    (by decide)

/-- C5 (counterexample): a triple with an empty predicate surface is
emitted when the oracle supplies an empty-string token tagged `VV` together
with a subject: the guard `if subj_str or verb or obj_str` passes on the
non-empty subject alone. -/
theorem empty_predicate_cex :
    extractSentence ["我", ""] ["PN", "VV"] [(2, "nsubj"), (0, "root")] =
      some [{ subject := "我", predicate := "", object := "" }] ∧
    (RoleTriple.mk "我" "" "").predicate = "" := ⟨by decide, rfl⟩

/-- C5 (amended): every emitted triple has at least one non-empty component
among subject, predicate and object (the emission guard); the predicate
itself can be empty when the oracle supplies an empty verb surface. -/
theorem triple_some_component_nonempty (words pos : List String)
    (deps : DepArcs) (ts : List RoleTriple)
    (hts : extractSentence words pos deps = some ts) :
    ∀ t ∈ ts, t.subject ≠ "" ∨ t.predicate ≠ "" ∨ t.object ≠ "" := by
  intro t ht
  unfold extractSentence at hts
  rcases hvs : findVerbs words pos with _ | vs
  · rw [hvs] at hts; simp at hts
  · rw [hvs] at hts
    simp only [Option.bind_eq_bind, Option.some_bind] at hts
    rcases hrs : optMapM (fun vw => processVerb words pos deps vw.1 vw.2) vs
        with _ | rs
    · rw [hrs] at hts; simp at hts
    · rw [hrs] at hts
      simp only [Option.some_bind, Option.pure_def, Option.some.injEq] at hts
      subst hts
      have hmem : some t ∈ rs := List.reduceOption_mem_iff.mp ht
      obtain ⟨vw, hvw, hpv⟩ := optMapM_mem _ vs rs hrs (some t) hmem
      unfold processVerb at hpv
      rcases hS : subjectsOf deps vw.1 with _ | S
      · rw [hS] at hpv; simp at hpv
      · rw [hS] at hpv
        simp only [Option.bind_eq_bind, Option.some_bind] at hpv
        rcases hO : objectsOf words pos deps vw.1 S with _ | O
        · rw [hO] at hpv; simp at hpv
        · rw [hO] at hpv
          simp only [Option.some_bind] at hpv
          rcases hss : renderIndices words S with _ | ss
          · rw [hss] at hpv; simp at hpv
          · rw [hss] at hpv
            simp only [Option.some_bind] at hpv
            rcases hos : renderIndices words O with _ | os
            · rw [hos] at hpv; simp at hpv
            · rw [hos] at hpv
              simp only [Option.some_bind, Option.pure_def,
                Option.some.injEq] at hpv
              by_cases hg : ss ≠ "" ∨ vw.2 ≠ "" ∨ os ≠ ""
              · rw [if_pos hg] at hpv
                cases hpv
                exact hg
              · rw [if_neg hg] at hpv
                cases hpv

/-- C5 (witness): the amended statement instantiated at the empty-verb
input, where the emitted triple has a non-empty subject. -/
theorem triple_some_component_nonempty_witness :
    extractSentence ["我", ""] ["PN", "VV"] [(2, "nsubj"), (0, "root")] =
      some [{ subject := "我", predicate := "", object := "" }] ∧
    ∀ t ∈ [RoleTriple.mk "我" "" ""],
      t.subject ≠ "" ∨ t.predicate ≠ "" ∨ t.object ≠ "" :=
  ⟨by decide,
   triple_some_component_nonempty ["我", ""] ["PN", "VV"]
     [(2, "nsubj"), (0, "root")] [RoleTriple.mk "我" "" ""] (by decide)⟩

theorem processVerb_inv (words pos : List String) (deps : DepArcs)
    (vidx : Nat) (verb : String) (t : RoleTriple)
    (h : processVerb words pos deps vidx verb = some (some t)) :
    ∃ S O ss os, subjectsOf deps vidx = some S ∧
      objectsOf words pos deps vidx S = some O ∧
      renderIndices words S = some ss ∧ renderIndices words O = some os ∧
      t = ⟨ss, verb, os⟩ ∧ (ss ≠ "" ∨ verb ≠ "" ∨ os ≠ "") := by
  unfold processVerb at h
  rcases hS : subjectsOf deps vidx with _ | S
  · rw [hS] at h; simp at h
  · rw [hS] at h
    simp only [Option.bind_eq_bind, Option.some_bind] at h
    rcases hO : objectsOf words pos deps vidx S with _ | O
    · rw [hO] at h; simp at h
    · rw [hO] at h
      simp only [Option.some_bind] at h
      rcases hss : renderIndices words S with _ | ss
      · rw [hss] at h; simp at h
      · rw [hss] at h
        simp only [Option.some_bind] at h
        rcases hos : renderIndices words O with _ | os
        · rw [hos] at h; simp at h
        · rw [hos] at h
          simp only [Option.some_bind, Option.pure_def, Option.some.injEq] at h
          by_cases hg : ss ≠ "" ∨ verb ≠ "" ∨ os ≠ ""
          · rw [if_pos hg] at h
            cases h
            exact ⟨S, O, ss, os, rfl, hO, hss, hos, rfl, hg⟩
          · rw [if_neg hg] at h
            cases h

theorem extractSentence_inv (words pos : List String) (deps : DepArcs)
    (ts : List RoleTriple) (hts : extractSentence words pos deps = some ts) :
    ∃ vs, findVerbs words pos = some vs ∧
      ∀ t ∈ ts, ∃ vw ∈ vs,
        processVerb words pos deps vw.1 vw.2 = some (some t) := by
  unfold extractSentence at hts
  rcases hvs : findVerbs words pos with _ | vs
  · rw [hvs] at hts; simp at hts
  · rw [hvs] at hts
    simp only [Option.bind_eq_bind, Option.some_bind] at hts
    rcases hrs : optMapM (fun vw => processVerb words pos deps vw.1 vw.2) vs
        with _ | rs
    · rw [hrs] at hts; simp at hts
    · rw [hrs] at hts
      simp only [Option.some_bind, Option.pure_def, Option.some.injEq] at hts
      subst hts
      refine ⟨vs, rfl, fun t ht => ?_⟩
      exact optMapM_mem _ vs rs hrs (some t) (List.reduceOption_mem_iff.mp ht)

theorem findVerbsAux_mem_iff (pos : List String) :
    ∀ (ws : List String) (k : Nat) (vs : List (Nat × String)),
      findVerbsAux pos k ws = some vs →
      ∀ (j : Nat) (w : String),
        ((j, w) ∈ vs ↔ (k ≤ j ∧ ws[j - k]? = some w ∧ pos[j]? = some "VV")) := by
  intro ws
  induction ws with
  | nil =>
    intro k vs h j w
    cases h
    simp
  | cons w0 rest ih =>
    intro k vs h j w
    unfold findVerbsAux at h
    rcases hq : pos[k]? with _ | tag
    · rw [hq] at h; simp at h
    · rw [hq] at h
      rcases hrest : findVerbsAux pos (k + 1) rest with _ | vs'
      · rw [hrest] at h; simp at h
      · rw [hrest] at h
        simp only [Option.bind_eq_bind, Option.some_bind, Option.pure_def,
          Option.some.injEq] at h
        subst h
        have hih := ih (k + 1) vs' hrest j w
        by_cases htag : tag = "VV"
        · rw [if_pos htag]
          subst htag
          constructor
          · intro hm
            rcases List.mem_cons.mp hm with heq | hm'
            · obtain ⟨rfl, rfl⟩ : j = k ∧ w = w0 := by
                constructor <;> [exact congrArg Prod.fst heq;
                  exact congrArg Prod.snd heq]
              refine ⟨le_refl _, ?_, hq⟩
              simp
            · obtain ⟨hk, hw, hp⟩ := hih.mp hm'
              refine ⟨by omega, ?_, hp⟩
              rw [show j - k = (j - (k + 1)) + 1 by omega] at *
              simpa using hw
          · rintro ⟨hk, hw, hp⟩
            by_cases hjk : j = k
            · subst hjk
              simp only [Nat.sub_self, List.getElem?_cons_zero,
                Option.some.injEq] at hw
              subst hw
              exact List.mem_cons_self _ _
            · refine List.mem_cons_of_mem _ (hih.mpr ⟨by omega, ?_, hp⟩)
              rw [show j - k = (j - (k + 1)) + 1 by omega] at hw
              simpa using hw
        · rw [if_neg htag]
          constructor
          · intro hm
            obtain ⟨hk, hw, hp⟩ := hih.mp hm
            refine ⟨by omega, ?_, hp⟩
            rw [show j - k = (j - (k + 1)) + 1 by omega] at *
            simpa using hw
          · rintro ⟨hk, hw, hp⟩
            by_cases hjk : j = k
            · subst hjk
              rw [hq] at hp
              cases hp
              exact absurd rfl htag
            · refine hih.mpr ⟨by omega, ?_, hp⟩
              rw [show j - k = (j - (k + 1)) + 1 by omega] at hw
              simpa using hw

/-! ### Claim C10: predicate candidates are exactly the VV-tagged tokens -/

/-- C10: a token anchors a predicate candidate exactly when its POS tag is
the string `VV`: the verb list contains `(j, w)` iff token `j` has surface
`w` and tag `VV`, and every emitted triple's predicate is the surface of a
`VV`-tagged token — tokens with any other tag (`VA`, `VC`, `VE`, ...) never
anchor a triple. -/
theorem verb_candidates_vv_only (words pos : List String) (deps : DepArcs)
    (vs : List (Nat × String)) (hvs : findVerbs words pos = some vs) :
    (∀ (j : Nat) (w : String),
      (j, w) ∈ vs ↔ (words[j]? = some w ∧ pos[j]? = some "VV")) ∧
    (∀ ts, extractSentence words pos deps = some ts →
      ∀ t ∈ ts, ∃ j : Nat, words[j]? = some t.predicate ∧
        pos[j]? = some "VV") := by
  have hiff := findVerbsAux_mem_iff pos words 0 vs hvs
  constructor
  · intro j w
    rw [hiff j w]
    constructor
    · rintro ⟨-, hw, hp⟩
      exact ⟨by simpa using hw, hp⟩
    · rintro ⟨hw, hp⟩
      exact ⟨Nat.zero_le _, by simpa using hw, hp⟩
  · intro ts hts t ht
    obtain ⟨vs', hvs', hall⟩ := extractSentence_inv words pos deps ts hts
    rw [hvs] at hvs'
    cases hvs'
    obtain ⟨vw, hvw, hpv⟩ := hall t ht
    obtain ⟨S, O, ss, os, -, -, -, -, hteq, -⟩ :=
      processVerb_inv words pos deps vw.1 vw.2 t hpv
    obtain ⟨-, hw, hp⟩ := (hiff vw.1 vw.2).mp (by simpa using hvw)
    refine ⟨vw.1, ?_, hp⟩
    rw [hteq]
    simpa using hw

/-- C10 (witness): the characterization instantiated on the 我爱Python
parse, whose only candidate is the token 爱 at position 1. -/
theorem verb_candidates_vv_only_witness :
    ((∀ (j : Nat) (w : String),
      (j, w) ∈ [(1, "爱")] ↔
        ((["我", "爱", "Python"] : List String)[j]? = some w ∧
         (["PN", "VV", "NN"] : List String)[j]? = some "VV")) ∧
    (∀ ts, extractSentence ["我", "爱", "Python"] ["PN", "VV", "NN"]
        [(2, "nsubj"), (0, "root"), (2, "dobj")] = some ts →
      ∀ t ∈ ts, ∃ j : Nat, (["我", "爱", "Python"] : List String)[j]? =
          some t.predicate ∧
        (["PN", "VV", "NN"] : List String)[j]? = some "VV")) :=
  verb_candidates_vv_only ["我", "爱", "Python"] ["PN", "VV", "NN"]
    [(2, "nsubj"), (0, "root"), (2, "dobj")] [(1, "爱")] (by decide)

/-! ### Claim C7: shared subject across conjoined verbs, one hop only -/

/-- C7: a verb with no nominal-subject dependents of its own whose arc has
relation `conj` and 1-based head `h ≥ 1` takes as its subject-index list the
`nsubj` children of the immediate governor `h - 1`, coordination-expanded;
the inheritance is exactly one hop: when the governor itself has no `nsubj`
children, the subject set is empty, regardless of what any higher ancestor
in the conjunct chain has. -/
theorem conj_subject_inheritance_one_hop (deps : DepArcs) (vidx : Nat)
    (h : Int) (hs0 : getChildren deps vidx ["nsubj"] = [])
    (harc : deps[vidx]? = some (h, "conj")) (hh : 1 ≤ h) :
    subjectsOf deps vidx =
      some ((getChildren deps (h - 1).toNat ["nsubj"]).flatMap
        (expandConj deps)) ∧
    (getChildren deps (h - 1).toNat ["nsubj"] = [] →
      subjectsOf deps vidx = some []) := by
  have hidx : subjIdxsOf deps vidx =
      some (getChildren deps (h - 1).toNat ["nsubj"]) := by
    unfold subjIdxsOf
    rw [if_pos hs0, harc]
    simp only [Option.bind_eq_bind, Option.some_bind, Option.pure_def,
      Option.some.injEq]
    rw [if_pos (by exact ⟨by omega, by trivial⟩)]
  constructor
  · unfold subjectsOf
    rw [hidx]
    rfl
  · intro hempty
    unfold subjectsOf
    rw [hidx, hempty]
    rfl

/-- C7 (witness): the chain 我唱跳写 in which 唱 has subject 我, 跳 is a
conjunct of 唱 and inherits 我, while 写 is a conjunct of 跳 whose governor
has no subject of its own, so 写's subject set is empty even though the
higher ancestor 唱 has one. -/
theorem conj_subject_inheritance_one_hop_witness :
    (subjectsOf [(2, "nsubj"), (0, "root"), (2, "conj"), (3, "conj")] 3 =
      some (((getChildren [(2, "nsubj"), (0, "root"), (2, "conj"), (3, "conj")]
          (((3 : Int) - 1).toNat) ["nsubj"]).flatMap
        (expandConj [(2, "nsubj"), (0, "root"), (2, "conj"), (3, "conj")]))) ∧
     (getChildren [(2, "nsubj"), (0, "root"), (2, "conj"), (3, "conj")]
          (((3 : Int) - 1).toNat) ["nsubj"] = [] →
       subjectsOf [(2, "nsubj"), (0, "root"), (2, "conj"), (3, "conj")] 3 =
         some [])) ∧
    subjectsOf [(2, "nsubj"), (0, "root"), (2, "conj"), (3, "conj")] 3 =
      some [] ∧
    extractSentence ["我", "唱", "跳", "写"] ["PN", "VV", "VV", "VV"]
        [(2, "nsubj"), (0, "root"), (2, "conj"), (3, "conj")] =
      some [{ subject := "我", predicate := "唱", object := "" },
            { subject := "我", predicate := "跳", object := "" },
            { subject := "", predicate := "写", object := "" }] :=
  ⟨conj_subject_inheritance_one_hop
     [(2, "nsubj"), (0, "root"), (2, "conj"), (3, "conj")] 3 3 (by decide)
     (by decide) (by decide),
   by decide, by decide⟩

/-! ### Claim C6: passive pivot merges patients into the object set -/

/-- C6: when the governor of a verb (1-based head `h ≥ 1`) carries POS tag
`LB` or `SB`, or its surface is the passive marker 被, the governor's
passive-subject (`nsubjpass`/`nsubj:pass`) dependents, coordination-expanded,
are collected as passive patients, and every one of them is merged into the
verb's object index set; the subject collection is a separate computation
(`subjectsOf`) that the passive step does not touch. -/
theorem passive_pivot_objects (words pos : List String) (deps : DepArcs)
    (vidx : Nat) (h : Int) (r tg : String)
    (harc : deps[vidx]? = some (h, r)) (hh : 1 ≤ h)
    (htg : pos[(h - 1).toNat]? = some tg)
    (htrig : tg = "LB" ∨ tg = "SB" ∨ words[(h - 1).toNat]? = some "被") :
    passiveObjects words pos deps vidx =
      some ((getChildren deps (h - 1).toNat
          ["nsubjpass", "nsubj:pass"]).flatMap (expandConj deps)) ∧
    (∀ S O, objectsOf words pos deps vidx S = some O →
      ∀ m ∈ (getChildren deps (h - 1).toNat
          ["nsubjpass", "nsubj:pass"]).flatMap (expandConj deps), m ∈ O) := by
  have hpass : passiveObjects words pos deps vidx =
      some ((getChildren deps (h - 1).toNat
          ["nsubjpass", "nsubj:pass"]).flatMap (expandConj deps)) := by
    unfold passiveObjects
    rw [harc]
    simp only [Option.bind_eq_bind, Option.some_bind]
    rw [if_pos (by omega : (h, r).1 - 1 ≥ 0)]
    rw [show ((h, r).1 - 1).toNat = (h - 1).toNat from rfl, htg]
    simp only [Option.bind_eq_bind, Option.some_bind]
    by_cases hLB : tg = "LB" ∨ tg = "SB"
    · rw [if_pos hLB]
      rfl
    · rw [if_neg hLB]
      rcases htrig with rfl | rfl | hw
      · exact absurd (Or.inl rfl) hLB
      · exact absurd (Or.inr rfl) hLB
      · rw [hw]
        simp
  refine ⟨hpass, fun S O hO m hm => ?_⟩
  unfold objectsOf at hO
  rw [hpass] at hO
  simp only [Option.bind_eq_bind, Option.some_bind] at hO
  rcases hB : baObjects pos deps vidx S (directObjects deps vidx ++
      (getChildren deps (h - 1).toNat ["nsubjpass", "nsubj:pass"]).flatMap
        (expandConj deps)) with _ | B
  · rw [hB] at hO; simp at hO
  · rw [hB] at hO
    simp only [Option.some_bind, Option.pure_def, Option.some.injEq] at hO
    subst hO
    exact List.mem_append_left _ (List.mem_append_right _ hm)

/-- C6 (witness): the passive sentence 苹果被我吃了, parsed with 吃 governed
by the marker 被 (tag `LB`) that bears passive-subject child 苹果 while 吃
has ordinary subject 我, satisfies the passive hypotheses, and end to end
the sentence yields exactly the triple (subject 我, predicate 吃,
object 苹果). -/
theorem passive_pivot_objects_witness :
    (passiveObjects ["苹果", "被", "我", "吃", "了"]
        ["NN", "LB", "PN", "VV", "AS"]
        [(2, "nsubjpass"), (0, "root"), (4, "nsubj"), (2, "dep"), (4, "aux")]
        3 =
      some ((getChildren
          [(2, "nsubjpass"), (0, "root"), (4, "nsubj"), (2, "dep"), (4, "aux")]
          (((2 : Int) - 1).toNat) ["nsubjpass", "nsubj:pass"]).flatMap
        (expandConj
          [(2, "nsubjpass"), (0, "root"), (4, "nsubj"), (2, "dep"),
            (4, "aux")])) ∧
     (∀ S O, objectsOf ["苹果", "被", "我", "吃", "了"]
          ["NN", "LB", "PN", "VV", "AS"]
          [(2, "nsubjpass"), (0, "root"), (4, "nsubj"), (2, "dep"), (4, "aux")]
          3 S = some O →
        ∀ m ∈ (getChildren
            [(2, "nsubjpass"), (0, "root"), (4, "nsubj"), (2, "dep"),
              (4, "aux")]
            (((2 : Int) - 1).toNat) ["nsubjpass", "nsubj:pass"]).flatMap
          (expandConj
            [(2, "nsubjpass"), (0, "root"), (4, "nsubj"), (2, "dep"),
              (4, "aux")]), m ∈ O)) ∧
    extractSentence ["苹果", "被", "我", "吃", "了"]
        ["NN", "LB", "PN", "VV", "AS"]
        [(2, "nsubjpass"), (0, "root"), (4, "nsubj"), (2, "dep"), (4, "aux")] =
      some [{ subject := "我", predicate := "吃", object := "苹果" }] :=
  ⟨passive_pivot_objects ["苹果", "被", "我", "吃", "了"]
     ["NN", "LB", "PN", "VV", "AS"]
     [(2, "nsubjpass"), (0, "root"), (4, "nsubj"), (2, "dep"), (4, "aux")]
     3 2 "dep" "LB" (by decide) (by decide) (by decide) (Or.inl rfl),
   by decide⟩

theorem baFilterAux_mem_iff (pos : List String) (subjects : List Nat) :
    ∀ (cands kept : List Nat), baFilterAux pos subjects cands = some kept →
      ∀ i : Nat, (i ∈ kept ↔ (i ∈ cands ∧ i ∉ subjects ∧
        ∃ p, pos[i]? = some p ∧ (p = "NN" ∨ p = "NR" ∨ p = "PN"))) := by
  intro cands
  induction cands with
  | nil =>
    intro kept h i
    cases h
    simp
  | cons idx rest ih =>
    intro kept h i
    unfold baFilterAux at h
    by_cases hs : idx ∈ subjects
    · rw [if_pos hs] at h
      rw [ih kept h i]
      constructor
      · rintro ⟨hm, hns, hp⟩
        exact ⟨List.mem_cons_of_mem _ hm, hns, hp⟩
      · rintro ⟨hm, hns, hp⟩
        rcases List.mem_cons.mp hm with rfl | hm'
        · exact absurd hs hns
        · exact ⟨hm', hns, hp⟩
    · rw [if_neg hs] at h
      rcases hq : pos[idx]? with _ | p
      · rw [hq] at h; simp at h
      · rw [hq] at h
        rcases hrest : baFilterAux pos subjects rest with _ | r
        · rw [hrest] at h; simp at h
        · rw [hrest] at h
          simp only [Option.bind_eq_bind, Option.some_bind, Option.pure_def,
            Option.some.injEq] at h
          subst h
          by_cases hn : p = "NN" ∨ p = "NR" ∨ p = "PN"
          · rw [if_pos hn]
            constructor
            · intro hm
              rcases List.mem_cons.mp hm with rfl | hm'
              · exact ⟨List.mem_cons_self _ _, hs, p, hq, hn⟩
              · obtain ⟨ha, hb, hc⟩ := (ih r hrest i).mp hm'
                exact ⟨List.mem_cons_of_mem _ ha, hb, hc⟩
            · rintro ⟨hm, hns, p', hq', hn'⟩
              rcases List.mem_cons.mp hm with rfl | hm'
              · exact List.mem_cons_self _ _
              · exact List.mem_cons_of_mem _
                  ((ih r hrest i).mpr ⟨hm', hns, p', hq', hn'⟩)
          · rw [if_neg hn]
            rw [ih r hrest i]
            constructor
            · rintro ⟨ha, hb, hc⟩
              exact ⟨List.mem_cons_of_mem _ ha, hb, hc⟩
            · rintro ⟨hm, hns, p', hq', hn'⟩
              rcases List.mem_cons.mp hm with rfl | hm'
              · rw [hq] at hq'
                cases hq'
                exact absurd hn' hn
              · exact ⟨hm', hns, p', hq', hn'⟩

/-! ### Claim C8: object-fronting (ba) construction -/

/-- C8: for a verb with an `aux:ba` dependent, the fronting search runs
exactly when the object set is still empty after the direct-object and
passive steps: in that case the `dep`/`obl`/`dobj` children that are not
already among the subject indices and whose POS tag is `NN`, `NR` or `PN`
are kept (the membership characterization below) and their coordination
expansions become the whole object set; when the object set is already
non-empty the fronting search adds nothing and the object set stays exactly
the direct-plus-passive collection. -/
theorem ba_fronting_objects (words pos : List String) (deps : DepArcs)
    (vidx : Nat) (S P kept : List Nat)
    (hba : getChildren deps vidx ["aux:ba"] ≠ [])
    (hP : passiveObjects words pos deps vidx = some P) :
    (directObjects deps vidx ++ P = [] →
      baFilterAux pos S (getChildren deps vidx ["dep", "obl", "dobj"]) =
        some kept →
      objectsOf words pos deps vidx S =
        some (kept.flatMap (expandConj deps)) ∧
      ∀ i : Nat, (i ∈ kept ↔
        (i ∈ getChildren deps vidx ["dep", "obl", "dobj"] ∧ i ∉ S ∧
         ∃ p, pos[i]? = some p ∧ (p = "NN" ∨ p = "NR" ∨ p = "PN")))) ∧
    (directObjects deps vidx ++ P ≠ [] →
      objectsOf words pos deps vidx S = some (directObjects deps vidx ++ P)) := by
  constructor
  · intro ho2 hk
    constructor
    · unfold objectsOf
      rw [hP]
      simp only [Option.bind_eq_bind, Option.some_bind]
      unfold baObjects
      rw [if_pos hba, if_pos ho2, hk]
      simp only [Option.bind_eq_bind, Option.some_bind, Option.pure_def,
        Option.some.injEq, ho2]
      simp
    · exact baFilterAux_mem_iff pos S _ kept hk
  · intro ho2
    unfold objectsOf
    rw [hP]
    simp only [Option.bind_eq_bind, Option.some_bind]
    unfold baObjects
    rw [if_pos hba, if_neg ho2]
    simp

/-- C8 (witness): the ba-construction 我把苹果吃了, in which 吃 has the
`aux:ba` child 把, no direct object and no passive patient, while 苹果 is a
`dep` child tagged `NN` outside the subject set; the sentence extracts to
(subject 我, predicate 吃, object 苹果). -/
theorem ba_fronting_objects_witness :
    ((directObjects
        [(4, "nsubj"), (4, "aux:ba"), (4, "dep"), (0, "root"), (4, "aux")]
        3 ++ [] = [] →
      baFilterAux ["PN", "BA", "NN", "VV", "AS"] [0]
          (getChildren
            [(4, "nsubj"), (4, "aux:ba"), (4, "dep"), (0, "root"), (4, "aux")]
            3 ["dep", "obl", "dobj"]) = some [2] →
      objectsOf ["我", "把", "苹果", "吃", "了"] ["PN", "BA", "NN", "VV", "AS"]
          [(4, "nsubj"), (4, "aux:ba"), (4, "dep"), (0, "root"), (4, "aux")]
          3 [0] =
        some (([2] : List Nat).flatMap (expandConj
          [(4, "nsubj"), (4, "aux:ba"), (4, "dep"), (0, "root"), (4, "aux")])) ∧
      ∀ i : Nat, (i ∈ ([2] : List Nat) ↔
        (i ∈ getChildren
            [(4, "nsubj"), (4, "aux:ba"), (4, "dep"), (0, "root"), (4, "aux")]
            3 ["dep", "obl", "dobj"] ∧ i ∉ ([0] : List Nat) ∧
         ∃ p, (["PN", "BA", "NN", "VV", "AS"] : List String)[i]? = some p ∧
           (p = "NN" ∨ p = "NR" ∨ p = "PN")))) ∧
     (directObjects
        [(4, "nsubj"), (4, "aux:ba"), (4, "dep"), (0, "root"), (4, "aux")]
        3 ++ [] ≠ [] →
      objectsOf ["我", "把", "苹果", "吃", "了"] ["PN", "BA", "NN", "VV", "AS"]
          [(4, "nsubj"), (4, "aux:ba"), (4, "dep"), (0, "root"), (4, "aux")]
          3 [0] =
        some (directObjects
          [(4, "nsubj"), (4, "aux:ba"), (4, "dep"), (0, "root"), (4, "aux")]
          3 ++ []))) ∧
    extractSentence ["我", "把", "苹果", "吃", "了"]
        ["PN", "BA", "NN", "VV", "AS"]
        [(4, "nsubj"), (4, "aux:ba"), (4, "dep"), (0, "root"), (4, "aux")] =
      some [{ subject := "我", predicate := "吃", object := "苹果" }] :=
  ⟨ba_fronting_objects ["我", "把", "苹果", "吃", "了"]
     ["PN", "BA", "NN", "VV", "AS"]
     [(4, "nsubj"), (4, "aux:ba"), (4, "dep"), (0, "root"), (4, "aux")]
     3 [0] [] [2] (by decide) (by decide),
   by decide⟩

theorem dictInsert_mem (k : String) (v : List RoleTriple) :
    ∀ (m : List (String × List RoleTriple)) (e : String × List RoleTriple),
      e ∈ dictInsert k v m → e ∈ m ∨ e = (k, v) := by
  intro m
  induction m with
  | nil =>
    intro e he
    simp only [dictInsert, List.mem_singleton] at he
    exact Or.inr he
  | cons p rest ih =>
    intro e he
    unfold dictInsert at he
    by_cases hk : p.1 = k
    · obtain ⟨p1, p2⟩ := p
      rw [if_pos hk] at he
      rcases List.mem_cons.mp he with rfl | he'
      · exact Or.inr rfl
      · exact Or.inl (List.mem_cons_of_mem _ he')
    · obtain ⟨p1, p2⟩ := p
      rw [if_neg hk] at he
      rcases List.mem_cons.mp he with rfl | he'
      · exact Or.inl (List.mem_cons_self _ _)
      · rcases ih e he' with h | h
        · exact Or.inl (List.mem_cons_of_mem _ h)
        · exact Or.inr h

theorem extractSvoAux_mem (docs : List SentDoc) :
    ∀ (ss : List String) (i : Nat) (acc m : List (String × List RoleTriple)),
      extractSvoAux docs i ss acc = some m →
      ∀ e ∈ m, e ∈ acc ∨ ∃ (j : Nat) (s : String) (d : SentDoc),
        ss[j]? = some s ∧ e.1 = pyStrip s ∧ docs[i + j]? = some d ∧
        extractSentence d.tok d.pos d.dep = some e.2 ∧ e.2 ≠ [] := by
  intro ss
  induction ss with
  | nil =>
    intro i acc m h e he
    cases h
    exact Or.inl he
  | cons s ss' ih =>
    intro i acc m h e he
    unfold extractSvoAux at h
    rcases hd : docs[i]? with _ | d
    · rw [hd] at h; simp at h
    · rw [hd] at h
      simp only [Option.bind_eq_bind, Option.some_bind] at h
      rcases hts : extractSentence d.tok d.pos d.dep with _ | ts
      · rw [hts] at h; simp at h
      · rw [hts] at h
        simp only [Option.some_bind] at h
        rcases ih (i + 1) _ m h e he with hacc | ⟨j', s', d', hs', he1, hd', hex, hne⟩
        · by_cases hne : ts ≠ []
          · rw [if_pos hne] at hacc
            rcases dictInsert_mem (pyStrip s) ts acc e hacc with h' | h'
            · exact Or.inl h'
            · refine Or.inr ⟨0, s, d, by simp, ?_, by simpa using hd, ?_, ?_⟩
              · rw [h']
              · rw [h']; exact hts
              · rw [h']; exact hne
          · rw [if_neg hne] at hacc
            exact Or.inl hacc
        · refine Or.inr ⟨j' + 1, s', d', by simpa using hs', he1, ?_, hex, hne⟩
          rw [show i + (j' + 1) = (i + 1) + j' by omega]
          exact hd'

theorem findVerbsAux_no_vv (pos : List String) :
    ∀ (ws : List String) (k : Nat),
      (∀ j : Nat, j < ws.length → ∃ p, pos[k + j]? = some p ∧ p ≠ "VV") →
      findVerbsAux pos k ws = some [] := by
  intro ws
  induction ws with
  | nil => intro k h; rfl
  | cons w rest ih =>
    intro k h
    obtain ⟨p, hp, hpne⟩ := h 0 (by simp)
    unfold findVerbsAux
    simp only [Nat.add_zero] at hp
    rw [hp, ih (k + 1) (fun j hj => by
      obtain ⟨q, hq, hqne⟩ := h (j + 1) (by simpa using Nat.succ_lt_succ hj)
      exact ⟨q, by rw [show k + 1 + j = k + (j + 1) by omega]; exact hq, hqne⟩)]
    simp [hpne]

/-! ### Claim C9: sentences with zero triples are omitted from the mapping -/

/-- C9: every entry of the result mapping carries a non-empty triple list —
a sentence is a key only because some sentence with that stripped text
extracted a non-empty triple list, so zero-triple sentences are omitted
rather than mapped to an empty list — and a sentence none of whose tokens
is tagged `VV` always extracts the empty triple list. -/
theorem empty_sentences_omitted :
    (∀ (sentences : List String) (docs : List SentDoc)
        (m : List (String × List RoleTriple)),
      extractSvo sentences docs = some m →
      ∀ e ∈ m, e.2 ≠ [] ∧ ∃ (j : Nat) (s : String) (d : SentDoc),
        sentences[j]? = some s ∧ e.1 = pyStrip s ∧ docs[j]? = some d ∧
        extractSentence d.tok d.pos d.dep = some e.2) ∧
    (∀ (words pos : List String) (deps : DepArcs),
      (∀ j : Nat, j < words.length → ∃ p, pos[j]? = some p ∧ p ≠ "VV") →
      extractSentence words pos deps = some []) := by
  constructor
  · intro sentences docs m h e he
    rcases extractSvoAux_mem docs sentences 0 [] m h e he with hacc | hrest
    · simp at hacc
    · obtain ⟨j, s, d, hs, he1, hd, hex, hne⟩ := hrest
      exact ⟨hne, j, s, d, hs, he1, by simpa using hd, hex⟩
  · intro words pos deps h
    unfold extractSentence
    rw [show findVerbs words pos = findVerbsAux pos 0 words from rfl,
      findVerbsAux_no_vv pos words 0 (fun j hj => by simpa using h j hj)]
    rfl

/-- C9 (witness): the two-sentence batch in which 你好 has no `VV` token and
is omitted from the mapping, while 我爱Python contributes its triple. -/
theorem empty_sentences_omitted_witness :
    (∀ e ∈ [("我爱Python。",
        [RoleTriple.mk "我" "爱" "Python"])],
      (e.2 ≠ []) ∧ ∃ (j : Nat) (s : String) (d : SentDoc),
        (["你好。", "我爱Python。"] : List String)[j]? = some s ∧
        e.1 = pyStrip s ∧
        ([⟨[(0, "root")], ["IJ"], ["你好"]⟩,
          ⟨[(2, "nsubj"), (0, "root"), (2, "dobj")], ["PN", "VV", "NN"],
            ["我", "爱", "Python"]⟩] : List SentDoc)[j]? = some d ∧
        extractSentence d.tok d.pos d.dep = some e.2) ∧
    extractSentence ["你好"] ["IJ"] [(0, "root")] = some [] :=
  ⟨empty_sentences_omitted.1 ["你好。", "我爱Python。"]
     [⟨[(0, "root")], ["IJ"], ["你好"]⟩,
      ⟨[(2, "nsubj"), (0, "root"), (2, "dobj")], ["PN", "VV", "NN"],
        ["我", "爱", "Python"]⟩]
     [("我爱Python。", [RoleTriple.mk "我" "爱" "Python"])] (by decide),
   empty_sentences_omitted.2 ["你好"] ["IJ"] [(0, "root")] (by decide)⟩

/-! ### Reachability along coordination arcs and completeness of the
breadth-first expansion -/

/-- Transitive reachability from `start` following `conj` arcs downward
(`start` reaches itself, and every `conj` child of a reached node is
reached); this is the specification of what `expand_conj` collects. -/
inductive ConjReach (deps : DepArcs) (start : Nat) : Nat → Prop where
  | refl : ConjReach deps start start
  | step {p c : Nat} : ConjReach deps start p →
      c ∈ getChildren deps p ["conj"] → ConjReach deps start c

theorem getChildrenAux_nodup (hd : Nat) (rels : List String) :
    ∀ (l : DepArcs) (k : Nat), (getChildrenAux hd rels k l).Nodup := by
  intro l
  induction l with
  | nil => intro k; simp [getChildrenAux]
  | cons p rest ih =>
    intro k
    obtain ⟨hh, rr⟩ := p
    by_cases hc : hh = (hd : Int) + 1 ∧ rr ∈ rels
    · simp only [getChildrenAux, if_pos hc]
      refine List.Nodup.cons (fun hmem => ?_) (ih (k + 1))
      have := getChildrenAux_lt hd rels rest (k + 1) k hmem
      omega
    · simp only [getChildrenAux, if_neg hc]
      exact ih (k + 1)

theorem nodup_length_le_of_lt (l : List Nat) (D : Nat) (hn : l.Nodup)
    (hb : ∀ v ∈ l, v < D) : l.length ≤ D := by
  calc l.length = l.toFinset.card := (List.toFinset_card_of_nodup hn).symm
    _ ≤ (Finset.range D).card := by
        refine Finset.card_le_card (fun x hx => ?_)
        rw [List.mem_toFinset] at hx
        rw [Finset.mem_range]
        exact hb x hx
    _ = D := Finset.card_range D

theorem expandConjAux_closure (deps : DepArcs) :
    ∀ (fuel : Nat) (queue visited : List Nat),
      visited.Nodup →
      (∀ q ∈ queue, q ∈ visited) →
      (∀ v ∈ visited, v < deps.length) →
      (∀ v ∈ visited, v ∈ queue ∨
        ∀ c ∈ getChildren deps v ["conj"], c ∈ visited) →
      queue.length + (deps.length - visited.length) < fuel →
      (∀ v ∈ visited, v ∈ expandConjAux deps fuel queue visited) ∧
      (∀ v ∈ expandConjAux deps fuel queue visited,
        ∀ c ∈ getChildren deps v ["conj"],
          c ∈ expandConjAux deps fuel queue visited) := by
  intro fuel
  induction fuel with
  | zero => intro queue visited _ _ _ _ hfuel; omega
  | succ f ih =>
    intro queue visited hnd hqv hvb hcl hfuel
    cases queue with
    | nil =>
      constructor
      · intro v hv
        simpa [expandConjAux] using hv
      · intro v hv c hc
        rw [show expandConjAux deps (f + 1) [] visited = visited from rfl]
          at hv ⊢
        rcases hcl v hv with hq | hcv
        · simp at hq
        · exact hcv c hc
    | cons curr rest =>
      have hstep : expandConjAux deps (f + 1) (curr :: rest) visited =
          expandConjAux deps f
            (rest ++ (getChildren deps curr ["conj"]).filter
              (fun c => decide (c ∉ visited)))
            (visited ++ (getChildren deps curr ["conj"]).filter
              (fun c => decide (c ∉ visited))) := rfl
      set fresh := (getChildren deps curr ["conj"]).filter
        (fun c => decide (c ∉ visited)) with hfresh
      have hfresh_mem : ∀ c ∈ fresh, c ∈ getChildren deps curr ["conj"] ∧
          c ∉ visited := by
        intro c hc
        have := List.mem_filter.mp hc
        exact ⟨this.1, by simpa using this.2⟩
      have hfresh_nodup : fresh.Nodup :=
        List.Nodup.filter _ (getChildrenAux_nodup curr ["conj"] deps 0)
      have hnd' : (visited ++ fresh).Nodup := by
        refine List.Nodup.append hnd hfresh_nodup ?_
        intro a ha hf
        exact (hfresh_mem a hf).2 ha
      have hvb' : ∀ v ∈ visited ++ fresh, v < deps.length := by
        intro v hv
        rcases List.mem_append.mp hv with h | h
        · exact hvb v h
        · exact getChildren_lt deps curr _ v (hfresh_mem v h).1
      have hqv' : ∀ q ∈ rest ++ fresh, q ∈ visited ++ fresh := by
        intro q hq
        rcases List.mem_append.mp hq with h | h
        · exact List.mem_append_left _ (hqv q (List.mem_cons_of_mem _ h))
        · exact List.mem_append_right _ h
      have hcl' : ∀ v ∈ visited ++ fresh, v ∈ rest ++ fresh ∨
          ∀ c ∈ getChildren deps v ["conj"], c ∈ visited ++ fresh := by
        intro v hv
        rcases List.mem_append.mp hv with h | h
        · rcases hcl v h with hq | hcv
          · rcases List.mem_cons.mp hq with rfl | hq'
            · right
              intro c hc
              by_cases hcvis : c ∈ visited
              · exact List.mem_append_left _ hcvis
              · exact List.mem_append_right _
                  (List.mem_filter.mpr ⟨hc, by simpa using hcvis⟩)
            · exact Or.inl (List.mem_append_left _ hq')
          · right
            intro c hc
            exact List.mem_append_left _ (hcv c hc)
        · exact Or.inl (List.mem_append_right _ h)
      have hlen : (visited ++ fresh).length ≤ deps.length :=
        nodup_length_le_of_lt _ _ hnd' hvb'
      have hfuel' : (rest ++ fresh).length +
          (deps.length - (visited ++ fresh).length) < f := by
        simp only [List.length_append, List.length_cons] at hlen hfuel ⊢
        omega
      obtain ⟨ha, hb⟩ := ih (rest ++ fresh) (visited ++ fresh) hnd' hqv'
        hvb' hcl' hfuel'
      rw [hstep]
      exact ⟨fun v hv => ha v (List.mem_append_left _ hv), hb⟩

theorem expandConj_complete (deps : DepArcs) (idx : Nat)
    (hidx : idx < deps.length) :
    ∀ j, ConjReach deps idx j → j ∈ expandConj deps idx := by
  have hcl := expandConjAux_closure deps (deps.length + 1) [idx] [idx]
    (List.nodup_singleton idx) (fun q hq => hq)
    (fun v hv => by rw [List.mem_singleton] at hv; omega)
    (fun v hv => Or.inl hv)
    (by simp only [List.length_singleton]; omega)
  intro j hj
  rw [expandConj, List.mem_insertionSort]
  induction hj with
  | refl => exact hcl.1 idx (List.mem_singleton_self idx)
  | step hp hc ihp => exact hcl.2 _ ihp _ hc

/-! ### Claim C4: rendering of argument sets -/

/-- C4 (counterexample): the subject string deduplicates by token index, not
by surface value: two coordinated subject tokens that share the surface 我
both contribute, so the surface appears twice in the joined string, where
the claim demands each surface appear exactly once. -/
theorem subject_surface_duplicated_cex :
    extractSentence ["我", "我", "吃"] ["PN", "PN", "VV"]
        [(3, "nsubj"), (1, "conj"), (0, "root")] =
      some [{ subject := "我、我", predicate := "吃", object := "" }] ∧
    ("我、我" : String) ≠ "我" := ⟨by decide, by decide⟩

/-- C4 (amended): the subject and object strings are the surfaces of the
collected argument token indices sorted ascending by original token index
and deduplicated by token index (not by surface value), joined with the
fixed separator 、.  In particular all tokens reachable from a subject of
the verb through `conj` arcs — e.g. two coordinated tokens A and B — appear
in the sorted duplicate-free index list, in token-index order, each index
exactly once even when reachable by several paths; two distinct tokens
sharing a surface each contribute their surface, so a surface may repeat. -/
theorem subject_rendering_sorted_dedup (words : List String)
    (deps : DepArcs) (vidx s0 a b : Nat)
    (hs0 : s0 ∈ getChildren deps vidx ["nsubj"])
    (ha : ConjReach deps s0 a) (hb : ConjReach deps s0 b) :
    ∃ S, subjectsOf deps vidx = some S ∧
      a ∈ sortedSet S ∧ b ∈ sortedSet S ∧
      (sortedSet S).Sorted (· ≤ ·) ∧ (sortedSet S).Nodup ∧
      renderIndices words S =
        (optMapM (fun i => words[i]?) (sortedSet S)).map
          (String.intercalate "、") := by
  have hne : getChildren deps vidx ["nsubj"] ≠ [] := by
    intro h
    rw [h] at hs0
    simp at hs0
  have hS : subjectsOf deps vidx =
      some ((getChildren deps vidx ["nsubj"]).flatMap (expandConj deps)) := by
    unfold subjectsOf subjIdxsOf
    rw [if_neg hne]
    rfl
  refine ⟨_, hS, ?_, ?_, ?_, ?_, ?_⟩
  · rw [sortedSet, List.mem_insertionSort, List.mem_dedup]
    exact List.mem_flatMap.mpr ⟨s0, hs0,
      expandConj_complete deps s0 (getChildren_lt deps vidx _ s0 hs0) a ha⟩
  · rw [sortedSet, List.mem_insertionSort, List.mem_dedup]
    exact List.mem_flatMap.mpr ⟨s0, hs0,
      expandConj_complete deps s0 (getChildren_lt deps vidx _ s0 hs0) b hb⟩
  · exact List.sorted_insertionSort (· ≤ ·) _
  · exact ((List.perm_insertionSort (· ≤ ·) _).nodup_iff).mpr
      (List.nodup_dedup _)
  · unfold renderIndices
    rcases h : optMapM (fun i => words[i]?) (sortedSet
        ((getChildren deps vidx ["nsubj"]).flatMap (expandConj deps))) with
        _ | surfs
    · rfl
    · rfl

/-- C4 (witness): the amended statement instantiated at 我我吃, where the
two subject tokens 0 and 1 are conj-coordinated, both reachable from the
subject index 0, and both indices appear once in the sorted list. -/
theorem subject_rendering_sorted_dedup_witness :
    ∃ S, subjectsOf [(3, "nsubj"), (1, "conj"), (0, "root")] 2 = some S ∧
      0 ∈ sortedSet S ∧ 1 ∈ sortedSet S ∧
      (sortedSet S).Sorted (· ≤ ·) ∧ (sortedSet S).Nodup ∧
      renderIndices ["我", "我", "吃"] S =
        (optMapM (fun i => (["我", "我", "吃"] : List String)[i]?)
          (sortedSet S)).map (String.intercalate "、") :=
  subject_rendering_sorted_dedup ["我", "我", "吃"]
    [(3, "nsubj"), (1, "conj"), (0, "root")] 2 0 0 1 (by decide)
    ConjReach.refl (ConjReach.step ConjReach.refl (by decide))

/-- C1 (witness): the idempotence criterion instantiated at the 我吃苹果
block and its annotation list. -/
theorem markBlock_idempotent_iff_no_change_witness :
    markBlock [("svo-predicate".toList, "吃".toList),
        ("svo-object".toList, "苹果".toList)]
      (markBlock [("svo-predicate".toList, "吃".toList),
          ("svo-object".toList, "苹果".toList)]
        [Node.text "我吃苹果".toList]) =
      markBlock [("svo-predicate".toList, "吃".toList),
          ("svo-object".toList, "苹果".toList)]
        [Node.text "我吃苹果".toList] ↔
    markBlock [("svo-predicate".toList, "吃".toList),
        ("svo-object".toList, "苹果".toList)]
      [Node.text "我吃苹果".toList] =
      [Node.text "我吃苹果".toList] :=
  markBlock_idempotent_iff_no_change
    [("svo-predicate".toList, "吃".toList), ("svo-object".toList, "苹果".toList)]
    [Node.text "我吃苹果".toList]
